import Mathlib

/-!
Verification of the versioned transcript engine against its design
specification.

Strings are modelled as `List Char` (JavaScript strings indexed by code
point, as produced by `Array.from`).  Each definition below is a direct
translation of a function of the source tree; the file name and function
name of the original are given in the doc comment.  Definitions whose
behaviour depends on facilities outside the repository (the Unicode
tables of the host, `String.normalize`, `crypto.subtle`) are marked
"Modelled from the spec" and model only the fragment of that behaviour
the theorems need.
-/

/-- Helper: the code points of a Lean string literal, used for concrete
test inputs. -/
def strL (s : String) : List Char := s.data

/-! ## Canonicalizer (`v2/shared/canonical.js`, `canonicalizeText`) -/

/-- A trailing blank stripped by the regex `[ \t]+$` of
`canonicalizeText`. -/
def isTrailBlank (c : Char) : Bool := c == ' ' || c == '\t'

/-- `t.replace(/\r/g, '')` of `canonicalizeText`. -/
def removeCR (s : List Char) : List Char := s.filter (fun c => c != '\r')

/-- The pointwise map of `t.replace(/\u00A0/g, ' ')`: NBSP becomes a
plain space, all other characters are unchanged. -/
def nbspFix (c : Char) : Char := if c = '\u00A0' then ' ' else c

/-- `t.replace(/\u00A0/g, ' ')` of `canonicalizeText`. -/
def mapNbsp (s : List Char) : List Char := s.map nbspFix

/-- Membership in the character class
`[\u200E\u200F\u202A-\u202E\u2066-\u2069]`. -/
def isBidiChar (c : Char) : Bool :=
  c.toNat == 0x200E || c.toNat == 0x200F ||
  (0x202A ≤ c.toNat && c.toNat ≤ 0x202E) ||
  (0x2066 ≤ c.toNat && c.toNat ≤ 0x2069)

/-- `t.replace(/[\u200E\u200F\u202A-\u202E\u2066-\u2069]/g, '')` of
`canonicalizeText`. -/
def stripBidi (s : List Char) : List Char := s.filter (fun c => !(isBidiChar c))

/-- JavaScript `s.split('\n')`: the segments of `s` between newline
characters (a trailing newline yields a final empty segment). -/
def splitNL : List Char → List (List Char)
  | [] => [[]]
  | c :: t =>
    if c = '\n' then [] :: splitNL t
    else
      match splitNL t with
      | [] => [[c]]
      | h :: r => (c :: h) :: r

/-- Joining segments back with a newline (the inverse of `splitNL`). -/
def joinNL : List (List Char) → List Char
  | [] => []
  | [p] => p
  | p :: r => p ++ '\n' :: joinNL r

/-- Removal of trailing spaces and tabs from one line (one match of the
regex `[ \t]+$` in multiline mode). -/
def dropTrailingBlanks (l : List Char) : List Char :=
  (l.reverse.dropWhile isTrailBlank).reverse

/-- `t.replace(/[ \t]+$/gm, '')` of `canonicalizeText`: trailing blanks
are removed on every line. -/
def trimLineEnds (s : List Char) : List Char :=
  joinNL ((splitNL s).map dropTrailingBlanks)

/-- `canonicalizeText` of `v2/shared/canonical.js`: remove carriage
returns, map NBSP to a plain space, strip the bidi format characters and
trim trailing blanks on every line.  (The source applies no Unicode
normalization.) -/
def canonicalizeText (s : List Char) : List Char :=
  trimLineEnds (stripBidi (mapNbsp (removeCR s)))

/-- Modelled from the spec: Unicode NFC normalization
(`String.prototype.normalize`, provided by the JavaScript host, not by
this repository).  Only the composition fact needed below is modelled:
the pair U+0065 LATIN SMALL LETTER E followed by U+0301 COMBINING ACUTE
ACCENT composes to the single code point U+00E9; all other sequences are
left unchanged. -/
def nfcSpec : List Char → List Char
  | [] => []
  | [a] => [a]
  | a :: b :: t2 =>
    if a = 'e' ∧ b = '\u0301' then '\u00E9' :: nfcSpec t2
    else a :: nfcSpec (b :: t2)

/-! ### Lemmas about the canonicalizer -/

theorem dropWhile_idem (p : α → Bool) (l : List α) :
    List.dropWhile p (List.dropWhile p l) = List.dropWhile p l := by
  induction l with
  | nil => rfl
  | cons c t ih =>
    by_cases h : p c
    · simp [List.dropWhile, h, ih]
    · simp [List.dropWhile, h]

theorem dropTrailingBlanks_idem (l : List Char) :
    dropTrailingBlanks (dropTrailingBlanks l) = dropTrailingBlanks l := by
  simp [dropTrailingBlanks, dropWhile_idem]

theorem dropTrailingBlanks_subset (l : List Char) :
    ∀ c ∈ dropTrailingBlanks l, c ∈ l := by
  intro c hc
  simp only [dropTrailingBlanks, List.mem_reverse] at hc
  exact List.mem_reverse.mp ((List.dropWhile_sublist _).subset hc)

theorem splitNL_ne_nil (s : List Char) : splitNL s ≠ [] := by
  induction s with
  | nil => simp [splitNL]
  | cons c t ih =>
    by_cases h : c = '\n'
    · simp [splitNL, h]
    · simp only [splitNL, h, if_false]
      cases hs : splitNL t with
      | nil => simp
      | cons a r => simp

theorem splitNL_no_newline (s : List Char) :
    ∀ p ∈ splitNL s, '\n' ∉ p := by
  induction s with
  | nil => intro p hp; simp [splitNL] at hp; simp [hp]
  | cons c t ih =>
    intro p hp
    by_cases h : c = '\n'
    · simp only [splitNL, h, if_true, List.mem_cons] at hp
      rcases hp with rfl | hp
      · simp
      · exact ih p hp
    · simp only [splitNL, h, if_false] at hp
      cases hs : splitNL t with
      | nil => exact absurd hs (splitNL_ne_nil t)
      | cons a r =>
        rw [hs] at hp
        rcases List.mem_cons.mp hp with rfl | hp2
        · intro hmem
          rcases List.mem_cons.mp hmem with h1 | h2
          · exact h h1.symm
          · exact ih a (by rw [hs]; exact List.mem_cons_self a r) h2
        · exact ih p (by rw [hs]; exact List.mem_cons_of_mem a hp2)

theorem joinNL_splitNL (s : List Char) : joinNL (splitNL s) = s := by
  induction s with
  | nil => rfl
  | cons c t ih =>
    by_cases h : c = '\n'
    · subst h
      simp only [splitNL, if_true]
      cases hs : splitNL t with
      | nil => exact absurd hs (splitNL_ne_nil t)
      | cons a r =>
        rw [hs] at ih
        simp [joinNL, ih]
    · simp only [splitNL, h, if_false]
      cases hs : splitNL t with
      | nil => exact absurd hs (splitNL_ne_nil t)
      | cons a r =>
        rw [hs] at ih
        cases r with
        | nil => simpa [joinNL] using congrArg (c :: ·) ih
        | cons b r2 => simpa [joinNL] using congrArg (c :: ·) ih

theorem splitNL_no_nl_line (p : List Char) (hp : '\n' ∉ p) :
    splitNL p = [p] := by
  induction p with
  | nil => rfl
  | cons c t iht =>
    have hc : ¬ (c = '\n') := fun h => hp (h ▸ List.mem_cons_self c t)
    have ht : '\n' ∉ t := fun h => hp (List.mem_cons_of_mem c h)
    simp only [splitNL, hc, if_false, iht ht]

theorem splitNL_line_append (p rest : List Char) (hp : '\n' ∉ p) :
    splitNL (p ++ '\n' :: rest) = p :: splitNL rest := by
  induction p with
  | nil =>
    simp only [List.nil_append, splitNL, if_true]
  | cons c t iht =>
    have hc : ¬ (c = '\n') := fun h => hp (h ▸ List.mem_cons_self c t)
    have ht : '\n' ∉ t := fun h => hp (List.mem_cons_of_mem c h)
    have h2 := iht ht
    simp only [List.cons_append, splitNL, hc, if_false]
    rw [show t.append ('\n' :: rest) = t ++ '\n' :: rest from rfl, h2]

theorem splitNL_joinNL (parts : List (List Char)) (hne : parts ≠ [])
    (hnl : ∀ p ∈ parts, '\n' ∉ p) :
    splitNL (joinNL parts) = parts := by
  induction parts with
  | nil => exact absurd rfl hne
  | cons p r ih =>
    cases r with
    | nil =>
      simpa [joinNL] using splitNL_no_nl_line p (hnl p (List.mem_cons_self p []))
    | cons q r2 =>
      have hp : '\n' ∉ p := hnl p (List.mem_cons_self p _)
      have hr : splitNL (joinNL (q :: r2)) = q :: r2 :=
        ih (by simp) (fun x hx => hnl x (List.mem_cons_of_mem p hx))
      simp only [joinNL, splitNL_line_append p _ hp, hr]

theorem mem_joinNL (parts : List (List Char)) (c : Char) :
    c ∈ joinNL parts → (∃ p ∈ parts, c ∈ p) ∨ c = '\n' := by
  induction parts with
  | nil => intro h; simp [joinNL] at h
  | cons p r ih =>
    intro h
    cases r with
    | nil =>
      simp only [joinNL] at h
      exact Or.inl ⟨p, List.mem_cons_self p [], h⟩
    | cons q r2 =>
      simp only [joinNL, List.mem_append, List.mem_cons] at h
      rcases h with h1 | h2 | h3
      · exact Or.inl ⟨p, List.mem_cons_self p _, h1⟩
      · exact Or.inr h2
      · rcases ih h3 with ⟨x, hx, hcx⟩ | hh
        · exact Or.inl ⟨x, List.mem_cons_of_mem p hx, hcx⟩
        · exact Or.inr hh

theorem trimLineEnds_idem (s : List Char) :
    trimLineEnds (trimLineEnds s) = trimLineEnds s := by
  have hsplit : splitNL (trimLineEnds s) = (splitNL s).map dropTrailingBlanks := by
    refine splitNL_joinNL _ ?_ ?_
    · intro h
      exact splitNL_ne_nil s (List.map_eq_nil_iff.mp h)
    · intro p hp
      rcases List.mem_map.mp hp with ⟨q, hq, rfl⟩
      intro hmem
      exact splitNL_no_newline s q hq (dropTrailingBlanks_subset q _ hmem)
  unfold trimLineEnds
  rw [show joinNL ((splitNL s).map dropTrailingBlanks) = trimLineEnds s from rfl,
    hsplit, List.map_map]
  congr 1
  exact List.map_congr_left (fun q _ => dropTrailingBlanks_idem q)

theorem splitNL_subset (s : List Char) :
    ∀ p ∈ splitNL s, ∀ c ∈ p, c ∈ s := by
  induction s with
  | nil => intro p hp c hc; simp [splitNL] at hp; subst hp; simp at hc
  | cons a t ih =>
    intro p hp c hc
    by_cases h : a = '\n'
    · simp only [splitNL, h, if_true, List.mem_cons] at hp
      rcases hp with rfl | hp
      · simp at hc
      · exact List.mem_cons_of_mem a (ih p hp c hc)
    · simp only [splitNL, h, if_false] at hp
      cases hs : splitNL t with
      | nil => exact absurd hs (splitNL_ne_nil t)
      | cons q r =>
        rw [hs] at hp
        rcases List.mem_cons.mp hp with rfl | hp2
        · rcases List.mem_cons.mp hc with rfl | hc2
          · exact List.mem_cons_self c t
          · exact List.mem_cons_of_mem a
              (ih q (by rw [hs]; exact List.mem_cons_self q r) c hc2)
        · exact List.mem_cons_of_mem a
            (ih p (by rw [hs]; exact List.mem_cons_of_mem q hp2) c hc)

theorem mem_trimLineEnds (s : List Char) (c : Char) :
    c ∈ trimLineEnds s → c ∈ s ∨ c = '\n' := by
  intro h
  rcases mem_joinNL _ c h with ⟨p, hp, hcp⟩ | hnl
  · rcases List.mem_map.mp hp with ⟨q, hq, rfl⟩
    exact Or.inl (splitNL_subset s q hq c (dropTrailingBlanks_subset q c hcp))
  · exact Or.inr hnl

theorem filter_eq_self_of (p : α → Bool) (l : List α) (h : ∀ a ∈ l, p a = true) :
    l.filter p = l :=
  List.filter_eq_self.mpr h


theorem map_eq_self_of (f : α → α) (l : List α) (h : ∀ a ∈ l, f a = a) :
    l.map f = l := by
  induction l with
  | nil => rfl
  | cons c t ih =>
    simp only [List.map_cons, h c (List.mem_cons_self c t),
      ih (fun a ha => h a (List.mem_cons_of_mem c ha))]

theorem mem_mapNbsp (s : List Char) (c : Char) (h : c ∈ mapNbsp s) :
    c = ' ' ∨ (c ∈ s ∧ ¬ (c = ' ')) := by
  rcases List.mem_map.mp h with ⟨a, ha, rfl⟩
  by_cases hn : a = ' '
  · left; simp [nbspFix, hn]
  · right
    rw [show nbspFix a = a from if_neg hn]
    exact ⟨ha, hn⟩

theorem canon_no_cr (s : List Char) : '\r' ∉ canonicalizeText s := by
  intro h
  rcases mem_trimLineEnds _ _ h with h2 | h2
  · have h3 : '\r' ∈ mapNbsp (removeCR s) := (List.filter_sublist _).subset h2
    rcases mem_mapNbsp _ _ h3 with h4 | ⟨h4, _⟩
    · exact absurd h4 (by decide)
    · have := List.of_mem_filter h4
      simp at this
  · exact absurd h2 (by decide)

theorem canon_no_nbsp (s : List Char) : ' ' ∉ canonicalizeText s := by
  intro h
  rcases mem_trimLineEnds _ _ h with h2 | h2
  · have h3 : ' ' ∈ mapNbsp (removeCR s) := (List.filter_sublist _).subset h2
    rcases mem_mapNbsp _ _ h3 with h4 | ⟨_, h4⟩
    · exact absurd h4 (by decide)
    · exact h4 rfl
  · exact absurd h2 (by decide)

theorem canon_no_bidi (s : List Char) (c : Char) (h : c ∈ canonicalizeText s) :
    isBidiChar c = false := by
  rcases mem_trimLineEnds _ _ h with h2 | h2
  · have := List.of_mem_filter h2
    simpa using this
  · subst h2; decide

theorem canon_split_eq (s : List Char) :
    splitNL (canonicalizeText s) =
      (splitNL (stripBidi (mapNbsp (removeCR s)))).map dropTrailingBlanks := by
  refine splitNL_joinNL _ ?_ ?_
  · intro h
    exact splitNL_ne_nil _ (List.map_eq_nil_iff.mp h)
  · intro p hp
    rcases List.mem_map.mp hp with ⟨q, hq, rfl⟩
    intro hmem
    exact splitNL_no_newline _ q hq (dropTrailingBlanks_subset q _ hmem)

theorem canon_lines_trimmed (s : List Char) :
    ∀ p ∈ splitNL (canonicalizeText s), dropTrailingBlanks p = p := by
  intro p hp
  rw [canon_split_eq] at hp
  rcases List.mem_map.mp hp with ⟨q, _, rfl⟩
  exact dropTrailingBlanks_idem q

theorem nbspFix_eq_of_ne (c : Char) (h : ¬ (c = ' ')) : nbspFix c = c := by
  unfold nbspFix
  rw [if_neg h]

theorem nbspFix_cr (c : Char) : (nbspFix c != '\r') = (c != '\r') := by
  by_cases h : c = ' '
  · subst h; decide
  · rw [nbspFix_eq_of_ne c h]

theorem removeCR_mapNbsp_comm (s : List Char) :
    removeCR (mapNbsp s) = mapNbsp (removeCR s) := by
  induction s with
  | nil => rfl
  | cons c t ih =>
    simp only [mapNbsp, List.map_cons, removeCR, List.filter_cons, nbspFix_cr]
    by_cases h : (c != '\r') = true
    · simp only [h, if_true, List.map_cons, List.cons.injEq]
      exact ⟨trivial, ih⟩
    · simp only [h, if_false]
      exact ih

theorem nbspFix_idem (c : Char) : nbspFix (nbspFix c) = nbspFix c := by
  by_cases h : c = ' '
  · subst h; decide
  · rw [nbspFix_eq_of_ne c h, nbspFix_eq_of_ne c h]

theorem mapNbsp_idem (s : List Char) : mapNbsp (mapNbsp s) = mapNbsp s := by
  simp only [mapNbsp, List.map_map]
  exact List.map_congr_left (fun a _ => nbspFix_idem a)

/-- The canonicalizer exactly as claim C3 and spec §4.1 describe it, with
Unicode NFC applied as the final step (modelled from the spec by
`nfcSpec`). -/
def canonicalizeSpec (s : List Char) : List Char :=
  nfcSpec (trimLineEnds (stripBidi (mapNbsp (removeCR s))))

/-- C3, counterexample: on the decomposed sequence U+0065 U+0301,
`canonicalizeText` does not apply Unicode NFC: the source returns the
input unchanged while the spec pipeline composes the pair to U+00E9. -/
theorem claimC3_counterexample :
    canonicalizeText (strL "é") ≠ canonicalizeSpec (strL "é") := by
  decide

/-- C3 (amended): `canonicalizeText` removes carriage returns, maps NBSP
to a plain space, strips the bidi format characters and trims trailing
blanks on every line — but it applies no Unicode NFC normalization. -/
theorem claimC3_canonicalize_ops (s : List Char) :
    ((canonicalizeText s).all
        (fun c => !(c == '\r') && !(c == ' ') && !(isBidiChar c))) = true
    ∧ ((splitNL (canonicalizeText s)).all
        (fun p => dropTrailingBlanks p == p)) = true
    ∧ canonicalizeText (mapNbsp s) = canonicalizeText s := by
  refine ⟨?_, ?_, ?_⟩
  · rw [List.all_eq_true]
    intro c hc
    have h1 : ¬ (c = '\r') := fun h => canon_no_cr s (h ▸ hc)
    have h2 : ¬ (c = ' ') := fun h => canon_no_nbsp s (h ▸ hc)
    have h3 := canon_no_bidi s c hc
    simp [h1, h2, h3]
  · rw [List.all_eq_true]
    intro p hp
    simpa using canon_lines_trimmed s p hp
  · unfold canonicalizeText
    rw [removeCR_mapNbsp_comm, mapNbsp_idem]

/-- C9: canonicalization is idempotent. -/
theorem claimC9_canonicalize_idempotent (s : List Char) :
    canonicalizeText (canonicalizeText s) = canonicalizeText s := by
  have h1 : removeCR (canonicalizeText s) = canonicalizeText s := by
    refine filter_eq_self_of _ _ (fun a ha => ?_)
    have : ¬ (a = '\r') := fun h => canon_no_cr s (h ▸ ha)
    simp [this]
  have h2 : mapNbsp (canonicalizeText s) = canonicalizeText s := by
    refine map_eq_self_of _ _ (fun a ha => ?_)
    have : ¬ (a = ' ') := fun h => canon_no_nbsp s (h ▸ ha)
    simp [nbspFix, this]
  have h3 : stripBidi (canonicalizeText s) = canonicalizeText s := by
    refine filter_eq_self_of _ _ (fun a ha => ?_)
    simp [canon_no_bidi s a ha]
  show trimLineEnds (stripBidi (mapNbsp (removeCR (canonicalizeText s)))) =
    canonicalizeText s
  rw [h1, h2, h3]
  exact trimLineEnds_idem _

/-! ## Timing validation (`v2/ui/controls.js`, `validateTimingData`) -/

/-- A word token as handled by `validateTimingData`: payload plus
optional start/end times in seconds.  The source field `end` is called
`stop` here because `end` is reserved in Lean.  Times are modelled as
exact rationals. -/
structure TranscriptWord where
  word : List Char
  start : Option ℚ
  stop : Option ℚ
deriving DecidableEq, Repr

/-- Modelled from the spec: the fake-timing test
`/^999999999\d/.test(String(x))` of `validateTimingData`.  The decimal
rendering `String(x)` of an IEEE number is host behaviour; it is modelled
arithmetically: the rendering begins with the digits 999999999 followed
by one more digit exactly when `x` is non-negative and the integer part
of `x` has `d` digits with `10 ≤ d ≤ 21` whose nine leading digits are
999999999 (numbers at or above 1e21 render in exponent form and never
match; negative numbers begin with a minus sign). -/
def fakeTiming (q : ℚ) : Bool :=
  decide (0 ≤ q.num) &&
  (List.range 12).any (fun k =>
    decide (999999999 * Int.ofNat (10 ^ (k + 1)) ≤ q.num / (q.den : ℤ)) &&
    decide (q.num / (q.den : ℤ) < Int.ofNat (10 ^ (k + 10))))

/-- `start != null && fakeTimingPattern.test(String(start))`. -/
def startFake (w : TranscriptWord) : Bool :=
  match w.start with
  | some q => fakeTiming q
  | none => false

/-- `end != null && fakeTimingPattern.test(String(end))`. -/
def endFake (w : TranscriptWord) : Bool :=
  match w.stop with
  | some q => fakeTiming q
  | none => false

/-- The error kinds thrown by `validateTimingData`. -/
inductive TimingErrKind where
  | fakeStart
  | fakeEnd
  | endBeforeStart
  | nonMonotonic
deriving DecidableEq, Repr

/-- The loop body of `validateTimingData` (controls.js lines 20-49),
walking the words with the previous word at hand.  A thrown `Error` is
modelled as `some (kind, index)`. -/
def validateTimingGo (prev : Option TranscriptWord) (i : Nat) :
    List TranscriptWord → Option (TimingErrKind × Nat)
  | [] => none
  | w :: rest =>
    if startFake w then some (.fakeStart, i)
    else if endFake w then some (.fakeEnd, i)
    else
      match w.start, w.stop with
      | some s, some e =>
        if e < s then some (.endBeforeStart, i)
        else
          match prev with
          | some pw =>
            match pw.stop with
            | some pe =>
              if s < pe then some (.nonMonotonic, i)
              else validateTimingGo (some w) (i + 1) rest
            | none => validateTimingGo (some w) (i + 1) rest
          | none => validateTimingGo (some w) (i + 1) rest
      | _, _ => validateTimingGo (some w) (i + 1) rest

/-- `validateTimingData` of `v2/ui/controls.js`: `none` means the words
were accepted, `some (kind, i)` means an error was thrown at index `i`. -/
def validateTimingData (words : List TranscriptWord) :
    Option (TimingErrKind × Nat) :=
  validateTimingGo none 0 words

/-- Exact rational addition that evaluates by kernel reduction
(the library addition on `ℚ` is `irreducible`). -/
def qadd (a b : ℚ) : ℚ :=
  mkRat (a.num * (b.den : ℤ) + b.num * (a.den : ℤ)) (a.den * b.den)


theorem qadd_eq (a b : ℚ) : qadd a b = a + b := by
  unfold qadd
  rw [Rat.add_def]
  have hd : a.den * b.den ≠ 0 := Nat.mul_ne_zero a.den_nz b.den_nz
  simp [mkRat, hd]

/-- Modelled from the spec (claim C5): the start of `w` is earlier than
the end `pe` of the previous word by more than the tolerance ε = 1e-3,
i.e. `w.start < pe - 1e-3`. -/
def beyondTolerance (s pe : ℚ) : Bool := qadd s (mkRat 1 1000) < pe

theorem beyondTolerance_iff (s pe : ℚ) :
    beyondTolerance s pe = true ↔ s < pe - mkRat 1 1000 := by
  unfold beyondTolerance
  rw [decide_eq_true_eq, qadd_eq, ← lt_sub_iff_add_lt]

/-- Modelled from the spec (claim C5): the rejection predicate exactly as
the claim states it — a fake start or end somewhere, or `end < start`
with both present, or two consecutive non-newline word tokens whose
timings disagree by more than ε = 1e-3. -/
def claimTimingRejects (ws : List TranscriptWord) : Bool :=
  ws.any (fun w => startFake w || endFake w) ||
  ws.any (fun w =>
    match w.start, w.stop with
    | some s, some e => e < s
    | _, _ => false) ||
  adjacentBeyondTol ws
where
  adjacentBeyondTol : List TranscriptWord → Bool
    | w1 :: w2 :: rest =>
      ((!(w1.word == ['\n'])) && (!(w2.word == ['\n'])) &&
        (match w2.start, w1.stop with
         | some s, some pe => beyondTolerance s pe
         | _, _ => false)) ||
      adjacentBeyondTol (w2 :: rest)
    | _ => false

/-- C5, counterexample: the words (start 0, end 1) then (start 0.9995,
end 2) are within the claimed ε = 1e-3 tolerance, so the claim says they
are accepted, yet `validateTimingData` throws: the source compares
`start < prevEnd` with no tolerance at all. -/
theorem claimC5_counterexample :
    validateTimingData
        [⟨strL "a", some 0, some 1⟩,
         ⟨strL "b", some (mkRat 1999 2000), some 2⟩]
      = some (TimingErrKind.nonMonotonic, 1)
    ∧ claimTimingRejects
        [⟨strL "a", some 0, some 1⟩,
         ⟨strL "b", some (mkRat 1999 2000), some 2⟩]
      = false := by
  constructor
  · decide
  · decide

/-- Elementwise rejection: fake start, fake end, or `end < start`. -/
def elemViol (w : TranscriptWord) : Bool :=
  startFake w || endFake w ||
  (match w.start, w.stop with
   | some s, some e => e < s
   | _, _ => false)

/-- Adjacent-pair rejection as the source implements it: the current
word has both timings, the previous token (of any kind, newline tokens
included) has an end, and `start < prevEnd` strictly. -/
def pairViol (pw w : TranscriptWord) : Bool :=
  match w.start, w.stop, pw.stop with
  | some s, some _, some pe => s < pe
  | _, _, _ => false

/-- All adjacent-pair violations of a word list. -/
def adjViol : List TranscriptWord → Bool
  | w1 :: w2 :: rest => pairViol w1 w2 || adjViol (w2 :: rest)
  | _ => false

theorem adjViol_cons (w : TranscriptWord) (ws : List TranscriptWord) :
    adjViol (w :: ws) =
      ((match ws with | w2 :: _ => pairViol w w2 | [] => false) || adjViol ws) := by
  cases ws with
  | nil => rfl
  | cons w2 r => rfl

theorem go_isNone_cons (prev : Option TranscriptWord) (i : Nat)
    (w : TranscriptWord) (rest : List TranscriptWord) :
    (validateTimingGo prev i (w :: rest)).isNone =
      (!(elemViol w) &&
       !(match prev with | some pw => pairViol pw w | none => false) &&
       (validateTimingGo (some w) (i + 1) rest).isNone) := by
  rw [validateTimingGo]
  cases hsf : startFake w with
  | true => simp [elemViol, hsf]
  | false =>
    cases hef : endFake w with
    | true => simp [elemViol, hsf, hef]
    | false =>
      rcases hs : w.start with _ | s
      · cases prev with
        | none => simp [elemViol, pairViol, hs, hsf, hef]
        | some pw => simp [elemViol, pairViol, hs, hsf, hef]
      · rcases he : w.stop with _ | e
        · cases prev with
          | none => simp [elemViol, pairViol, hs, he, hsf, hef]
          | some pw => simp [elemViol, pairViol, hs, he, hsf, hef]
        · by_cases hlt : e < s
          · cases prev with
            | none => simp [elemViol, pairViol, hs, he, hsf, hef, hlt]
            | some pw => simp [elemViol, pairViol, hs, he, hsf, hef, hlt]
          · cases prev with
            | none => simp [elemViol, pairViol, hs, he, hsf, hef, hlt]
            | some pw =>
              rcases hpe : pw.stop with _ | pe
              · simp [elemViol, pairViol, hs, he, hsf, hef, hlt, hpe]
              · by_cases hm : s < pe
                · simp [elemViol, pairViol, hs, he, hsf, hef, hlt, hpe, hm]
                · simp [elemViol, pairViol, hs, he, hsf, hef, hlt, hpe, hm]

theorem go_isNone_eq (ws : List TranscriptWord) :
    ∀ (prev : Option TranscriptWord) (i : Nat),
    (validateTimingGo prev i ws).isNone =
      (ws.all (fun w => !(elemViol w)) &&
       !(adjViol (prev.elim ws (· :: ws)))) := by
  induction ws with
  | nil =>
    intro prev i
    cases prev with
    | none => simp [validateTimingGo, adjViol]
    | some pw => simp [validateTimingGo, adjViol]
  | cons w rest ih =>
    intro prev i
    rw [go_isNone_cons, ih (some w) (i + 1)]
    cases prev with
    | none =>
      simp only [Option.elim, List.all_cons]
      rw [adjViol_cons w rest]
      cases elemViol w <;> cases rest.all (fun x => !(elemViol x)) <;>
        cases adjViol rest <;>
        (cases rest with
         | nil => simp [pairViol]
         | cons w2 r2 => cases pairViol w w2 <;> simp)
    | some pw =>
      simp only [Option.elim, List.all_cons]
      rw [show adjViol (pw :: w :: rest) = (pairViol pw w || adjViol (w :: rest)) from rfl,
        adjViol_cons w rest]
      cases elemViol w <;> cases pairViol pw w <;>
        cases rest.all (fun x => !(elemViol x)) <;> cases adjViol rest <;>
        (cases rest with
         | nil => simp [pairViol]
         | cons w2 r2 => cases pairViol w w2 <;> simp)

/-- C5 (amended): `validateTimingData` accepts exactly when no word has a
fake start or end, no word has `end < start` with both present, and no
word with both timings present starts strictly before the previous
token's end — the comparison is strict, with no ε tolerance, and newline
tokens are not exempted. -/
theorem claimC5_timing_validation (ws : List TranscriptWord) :
    validateTimingData ws = none ↔
      (ws.all (fun w => !(elemViol w)) = true ∧ adjViol ws = false) := by
  rw [← Option.isNone_iff_eq_none, validateTimingData, go_isNone_eq ws none 0]
  simp [Option.elim]

/-! ## Backend API client (`v2/data/api.js`) -/

/-- The result of the JavaScript coercion `+x`: either a finite number
(modelled as an exact rational) or a non-finite value (NaN or an
infinity), which `Number.isFinite` rejects. -/
inductive JSNum where
  | fin (q : ℚ)
  | nonFinite
deriving DecidableEq, Repr

/-- `saveTranscriptVersion` (api.js): the `neighbors` field of the saved
payload.  When `Number.isFinite(+neighbors)`, the payload carries
`Math.max(0, Math.min(3, +neighbors))`; otherwise the field is omitted
(`none`). -/
def saveNeighborsField : JSNum → Option ℚ
  | .fin q => some (max 0 (min 3 q))
  | .nonFinite => none

/-- `alignSegment` (api.js): the `neighbors` field of the request body,
`Math.max(0, Math.min(3, Number.isFinite(+neighbors) ? +neighbors : 1))`. -/
def alignNeighborsField : JSNum → ℚ
  | .fin q => max 0 (min 3 q)
  | .nonFinite => max 0 (min 3 1)

/-- C10: every `neighbors` value sent to the backend lies in [0, 3]; a
finite request is clamped into that range and `alignSegment` substitutes
1 for a non-finite request. -/
theorem claimC10_neighbors_clamped (x : JSNum) :
    (∀ q : ℚ, saveNeighborsField x = some q → 0 ≤ q ∧ q ≤ 3)
    ∧ 0 ≤ alignNeighborsField x ∧ alignNeighborsField x ≤ 3
    ∧ alignNeighborsField JSNum.nonFinite = 1 := by
  have hclamp : ∀ q : ℚ, 0 ≤ max 0 (min 3 q) ∧ max 0 (min 3 q) ≤ 3 := by
    intro q
    refine ⟨le_max_left 0 _, max_le (by norm_num) (min_le_left 3 q)⟩
  refine ⟨?_, ?_, ?_, by decide⟩
  · intro q hq
    cases x with
    | fin v =>
      simp only [saveNeighborsField, Option.some.injEq] at hq
      exact hq ▸ hclamp v
    | nonFinite => simp [saveNeighborsField] at hq
  · cases x with
    | fin v => exact (hclamp v).1
    | nonFinite => exact (hclamp 1).1
  · cases x with
    | fin v => exact (hclamp v).2
    | nonFinite => exact (hclamp 1).2

/-- Witness for C10 at the concrete request `neighbors = 7/2`: the saved
field is clamped to 3, which the theorem places inside [0, 3]. -/
theorem claimC10_witness :
    (0 ≤ (3 : ℚ) ∧ (3 : ℚ) ≤ 3) ∧
      saveNeighborsField (JSNum.fin (mkRat 7 2)) = some 3 :=
  ⟨(claimC10_neighbors_clamped (JSNum.fin (mkRat 7 2))).1 3 (by decide),
   by decide⟩

/-- One backend response to a `/transcripts/save` POST, as the retry loop
of `saveTranscriptVersion` distinguishes them: `r.ok`, a 409 conflict, or
an error with its status code and body text. -/
inductive BackendResp where
  | ok
  | conflict
  | err (status : Nat) (body : List Char)
deriving DecidableEq, Repr

/-- `startsWithSeq pat l`: `pat` is an initial segment of `l`. -/
def startsWithSeq : List Char → List Char → Bool
  | [], _ => true
  | _ :: _, [] => false
  | a :: as, b :: bs => a == b && startsWithSeq as bs

/-- `containsSeq pat l`: `pat` occurs contiguously inside `l`. -/
def containsSeq (pat : List Char) : List Char → Bool
  | [] => pat.isEmpty
  | c :: rest => startsWithSeq pat (c :: rest) || containsSeq pat rest

/-- The retriability test of `saveTranscriptVersion`:
`r.status >= 500 || /database is locked/i.test(lastErrText)`. -/
def retriableErrText (status : Nat) (body : List Char) : Bool :=
  decide (500 ≤ status) ||
  containsSeq (strL "database is locked") (body.map Char.toLower)

/-- Whether a response is consumed as a retriable error by the loop. -/
def retriableResp : BackendResp → Bool
  | .err status body => retriableErrText status body
  | _ => false

/-- The outcome of `saveTranscriptVersion`. -/
inductive SaveCallOutcome where
  | success
  | conflictThrown
  | failed
deriving DecidableEq, Repr

/-- The retry loop of `saveTranscriptVersion` (api.js lines 402-427) over
the sequence of backend responses.  `attempt` counts the requests already
made (`maxAttempts = 6`).  Returns the outcome together with the list of
backoff delays awaited, in milliseconds (`50 * attempt` after the
`attempt`-th failed request). -/
def saveRetryGo (attempt : Nat) : List BackendResp → SaveCallOutcome × List Nat
  | [] => (.failed, [])
  | r :: rest =>
    if attempt < 6 then
      match r with
      | .ok => (.success, [])
      | .conflict => (.conflictThrown, [])
      | .err status body =>
        if retriableErrText status body ∧ attempt + 1 < 6 then
          let tail := saveRetryGo (attempt + 1) rest
          (tail.1, 50 * (attempt + 1) :: tail.2)
        else (.failed, [])
    else (.failed, [])

/-- The whole retry wrapper: at most 6 attempts starting from zero. -/
def saveTranscriptVersionRetry (rs : List BackendResp) :
    SaveCallOutcome × List Nat :=
  saveRetryGo 0 rs

/-- C7, counterexample: with every request failing on a lock, the awaited
backoff schedule is 50, 100, 150, 200, 250 ms — an arithmetic
progression, not an exponential one (no ratio `r` can give both
50·r = 100 and 100·r = 150). -/
theorem claimC7_counterexample :
    (saveTranscriptVersionRetry
        (List.replicate 6 (BackendResp.err 200 (strL "database is locked")))).2
      = [50, 100, 150, 200, 250]
    ∧ ¬ (∃ r : ℕ,
        [50, 100, 150, 200, 250] =
          [50, 50 * r, 50 * r * r, 50 * r * r * r, 50 * r * r * r * r]) := by
  constructor
  · decide
  · rintro ⟨r, h⟩
    have h1 : 100 = 50 * r := by
      have := congrArg (fun l => l.get? 1) h
      simpa using this
    have h2 : 150 = 50 * r * r := by
      have := congrArg (fun l => l.get? 2) h
      simpa using this
    have hr : r = 2 := by omega
    rw [hr] at h2
    omega

theorem saveRetryGo_err_step (attempt status : Nat) (body : List Char)
    (rest : List BackendResp) (h6 : attempt < 6)
    (hrt : retriableErrText status body = true) (h7 : attempt + 1 < 6) :
    saveRetryGo attempt (BackendResp.err status body :: rest)
      = ((saveRetryGo (attempt + 1) rest).1,
         50 * (attempt + 1) :: (saveRetryGo (attempt + 1) rest).2) := by
  simp [saveRetryGo, h6, hrt, h7]

theorem mapRangeDelays (a L : Nat) :
    (List.range (L + 1)).map (fun i => 50 * (a + 1 + i))
      = 50 * (a + 1) :: (List.range L).map (fun i => 50 * (a + 1 + 1 + i)) := by
  rw [List.range_succ_eq_map, List.map_cons, List.map_map]
  refine List.cons_eq_cons.mpr ⟨by omega, ?_⟩
  refine List.map_congr_left (fun i _ => ?_)
  simp only [Function.comp_apply]
  omega

theorem saveRetryGo_delays (rs : List BackendResp) :
    ∀ attempt : Nat, attempt ≤ 5 →
    (saveRetryGo attempt rs).2 =
      (List.range (saveRetryGo attempt rs).2.length).map
        (fun i => 50 * (attempt + 1 + i))
    ∧ attempt + (saveRetryGo attempt rs).2.length ≤ 5 := by
  induction rs with
  | nil => intro attempt h; simp [saveRetryGo]; omega
  | cons r rest ih =>
    intro attempt h
    have h6 : attempt < 6 := by omega
    cases r with
    | ok => simp [saveRetryGo, h6]; omega
    | conflict => simp [saveRetryGo, h6]; omega
    | err status body =>
      by_cases hrt : retriableErrText status body = true ∧ attempt + 1 < 6
      · have hle : attempt + 1 ≤ 5 := by omega
        have ihh := ih (attempt + 1) hle
        rw [saveRetryGo_err_step attempt status body rest h6 hrt.1 hrt.2]
        refine ⟨?_, ?_⟩
        · simp only [List.length_cons, mapRangeDelays]
          exact List.cons_eq_cons.mpr ⟨rfl, ihh.1⟩
        · have := ihh.2
          simp only [List.length_cons]
          omega
      · have hstep : saveRetryGo attempt (BackendResp.err status body :: rest)
            = (SaveCallOutcome.failed, []) := by
          simp only [saveRetryGo, if_pos h6, if_neg hrt]
        rw [hstep]
        simp
        omega

theorem saveRetryGo_conflict (pre : List BackendResp) :
    ∀ (attempt : Nat) (rest : List BackendResp),
    (∀ r ∈ pre, retriableResp r = true) → attempt + pre.length ≤ 5 →
    saveRetryGo attempt (pre ++ BackendResp.conflict :: rest)
      = (SaveCallOutcome.conflictThrown,
         (List.range pre.length).map (fun i => 50 * (attempt + 1 + i))) := by
  induction pre with
  | nil =>
    intro attempt rest _ hlen
    have h6 : attempt < 6 := by
      simp only [List.length_nil] at hlen; omega
    simp [saveRetryGo, h6]
  | cons r pre2 ih =>
    intro attempt rest hall hlen
    simp only [List.length_cons] at hlen
    have hr : retriableResp r = true := hall r (List.mem_cons_self r pre2)
    cases r with
    | ok => simp [retriableResp] at hr
    | conflict => simp [retriableResp] at hr
    | err status body =>
      have hrt : retriableErrText status body = true := hr
      have h6 : attempt < 6 := by omega
      have h7 : attempt + 1 < 6 := by omega
      have hlen2 : attempt + 1 + pre2.length ≤ 5 := by omega
      have ihh := ih (attempt + 1) rest
        (fun x hx => hall x (List.mem_cons_of_mem _ hx)) hlen2
      rw [List.cons_append,
        saveRetryGo_err_step attempt status body _ h6 hrt h7, ihh]
      simp only [List.length_cons, mapRangeDelays]

/-- C7 (amended): the save retry loop makes at most 6 attempts with a
linear backoff of 50 ms times the attempt number — the awaited delays are
always a prefix of 50, 100, 150, 200, 250 ms, totalling at most 750 ms
(within the claimed 1.2 s) — and a 409 Conflict response is thrown
immediately: after any run of retriable errors followed by a 409, the
outcome is the conflict with no further attempt. -/
theorem claimC7_retry_policy (rs : List BackendResp) :
    (saveTranscriptVersionRetry rs).2.length ≤ 5
    ∧ (saveTranscriptVersionRetry rs).2 =
        (List.range (saveTranscriptVersionRetry rs).2.length).map
          (fun i => 50 * (i + 1))
    ∧ (saveTranscriptVersionRetry rs).2.sum ≤ 750
    ∧ ∀ (pre rest : List BackendResp),
        (∀ r ∈ pre, retriableResp r = true) → pre.length ≤ 5 →
        saveTranscriptVersionRetry (pre ++ BackendResp.conflict :: rest)
          = (SaveCallOutcome.conflictThrown,
             (List.range pre.length).map (fun i => 50 * (i + 1))) := by
  have hd := saveRetryGo_delays rs 0 (by omega)
  have hshape : (saveTranscriptVersionRetry rs).2 =
      (List.range (saveTranscriptVersionRetry rs).2.length).map
        (fun i => 50 * (i + 1)) := by
    show (saveRetryGo 0 rs).2 =
      (List.range (saveRetryGo 0 rs).2.length).map (fun i => 50 * (i + 1))
    conv_lhs => rw [hd.1]
    refine List.map_congr_left (fun i _ => ?_)
    omega
  have hlen : (saveTranscriptVersionRetry rs).2.length ≤ 5 := by
    have := hd.2
    simpa [saveTranscriptVersionRetry] using this
  refine ⟨hlen, hshape, ?_, ?_⟩
  · rw [hshape]
    set n := (saveTranscriptVersionRetry rs).2.length with hn
    clear_value n
    interval_cases n <;> decide
  · intro pre rest hall hlen2
    have := saveRetryGo_conflict pre 0 rest hall (by omega)
    rw [show saveTranscriptVersionRetry (pre ++ BackendResp.conflict :: rest)
        = saveRetryGo 0 (pre ++ BackendResp.conflict :: rest) from rfl, this]
    refine congrArg _ ?_
    refine List.map_congr_left (fun i _ => ?_)
    omega

/-- Witness for C7: one locked-database failure then a 409 — the loop
surfaces the conflict immediately after a single 50 ms backoff. -/
theorem claimC7_witness :
    saveTranscriptVersionRetry
        ([BackendResp.err 503 []] ++ BackendResp.conflict :: [])
      = (SaveCallOutcome.conflictThrown,
         (List.range 1).map (fun i => 50 * (i + 1))) :=
  (claimC7_retry_policy
      ([BackendResp.err 503 []] ++ BackendResp.conflict :: [])).2.2.2
    [BackendResp.err 503 []] [] (by decide) (by decide)

/-! ## Save coordinator (`v2/ui/controls.js`, `performSave`) -/

/-- The state `performSave` reads (controls.js lines 474-533).  `tokens`
is the non-deleted token payloads of `st.tokens` (falling back to
`st.baselineTokens`), `version` is `st.version` when it is a finite
number, `hasFile` says whether the folder/file dataset entries are set,
and `probe` is the outcome of the early `getLatestTranscript` probe:
`none` when that block threw (its `try/catch` swallows the error),
`some none` when the backend returned nothing, and `some (some lv)` for
a latest version `lv`. -/
structure SaveEnv where
  saving : Bool
  tokens : List (List Char)
  liveText : List Char
  baselineText : List Char
  version : Option ℚ
  hasFile : Bool
  probe : Option (Option ℚ)
deriving DecidableEq, Repr

/-- The canonical text a save persists:
`canonicalizeText(st.liveText)`, falling back to the token join when
that is empty. -/
def saveTextOf (env : SaveEnv) : List Char :=
  let text0 := canonicalizeText env.liveText
  if text0 = [] then canonicalizeText env.tokens.flatten else text0

/-- How far `performSave` gets before any store write.  `insertCalled`
is the call to `api.saveTranscriptVersion` with the parent version and
text it would send; everything after that call is outside this model. -/
inductive SaveStep where
  | skippedSaving
  | nothingToSave
  | noFile
  | conflictModal
  | noChange
  | insertCalled (parentVersion : Option ℚ) (text : List Char)
deriving DecidableEq, Repr

/-- The decision prefix of `performSave` (controls.js lines 474-533), up
to and including the store insert: re-entry guard, empty-token guard,
text computation, missing-file guard, early conflict probe, no-op
short-circuit, then the insert. -/
def performSaveModel (env : SaveEnv) : SaveStep :=
  if env.saving then .skippedSaving
  else if env.tokens = [] then .nothingToSave
  else
    let text := saveTextOf env
    if env.hasFile = false then .noFile
    else
      let conflictHit :=
        match env.probe, env.version with
        | some (some lv), some v => decide (0 < v) && decide (lv ≠ v)
        | _, _ => false
      if conflictHit then .conflictModal
      else
        let parentVersionGuess : Option ℚ :=
          match env.version with
          | some v => if 0 < v then some v else none
          | none => none
        if parentVersionGuess ≠ none ∧ canonicalizeText env.baselineText = text then
          .noChange
        else
          .insertCalled parentVersionGuess text

/-- C6, counterexample: a no-op save (canonical baseline equals the
canonical editor text, client version 1 > 0) does not return `NoChange`
when another writer has moved the document to version 2 — the early
conflict probe runs before the no-op short-circuit and opens the merge
dialog instead. -/
theorem claimC6_counterexample :
    performSaveModel
        { saving := false, tokens := [strL "a"], liveText := strL "a",
          baselineText := strL "a", version := some 1, hasFile := true,
          probe := some (some 2) }
      = SaveStep.conflictModal
    ∧ canonicalizeText (strL "a") =
        saveTextOf
          { saving := false, tokens := [strL "a"], liveText := strL "a",
            baselineText := strL "a", version := some 1, hasFile := true,
            probe := some (some 2) }
    ∧ SaveStep.conflictModal ≠ SaveStep.noChange := by
  refine ⟨by decide, by decide, by decide⟩

/-- C6 (amended): a save with a held version (`client_version > 0`) whose
canonical baseline equals the canonical editor text returns `NoChange`
without reaching the store insert — provided the save is actually
attempted (not re-entered, tokens present, a file selected) and the early
conflict probe does not divert it (the probe threw, returned nothing, or
returned the same version the client holds). -/
theorem claimC6_noop_save (env : SaveEnv) (v : ℚ)
    (hsaving : env.saving = false)
    (htok : env.tokens ≠ [])
    (hfile : env.hasFile = true)
    (hv : env.version = some v)
    (hvpos : 0 < v)
    (hprobe : env.probe = none ∨ env.probe = some none ∨
      env.probe = some (some v))
    (hsame : canonicalizeText env.baselineText = saveTextOf env) :
    performSaveModel env = SaveStep.noChange := by
  rcases hprobe with h | h | h <;>
    simp [performSaveModel, hsaving, htok, hfile, h, hv, hvpos, hsame]

/-- Witness for C6: a concrete untouched document at version 1 — the
model returns `NoChange`. -/
theorem claimC6_witness :
    performSaveModel
        { saving := false, tokens := [strL "a"], liveText := strL "a",
          baselineText := strL "a", version := some 1, hasFile := true,
          probe := some (some 1) }
      = SaveStep.noChange :=
  claimC6_noop_save _ 1 (by decide) (by decide) (by decide) (by decide)
    (by decide) (Or.inr (Or.inr (by decide))) (by decide)

/-! ## Diff engine (`v2/workers/diff-core.js`) -/

/-- One diff op: code (−1 delete, 0 equal, +1 insert) and payload. -/
abbrev DiffOp := Int × List Char

/-- Reattach the newline suffixes after a split (the loop body of
`splitLinesKeepNL`). -/
def attachNL : List (List Char) → List (List Char)
  | [] => []
  | [p] => [p]
  | p :: r => (p ++ ['\n']) :: attachNL r

/-- `splitLinesKeepNL`: split on newlines, keeping the newline at the
end of every segment but the last. -/
def splitLinesKeepNL (s : List Char) : List (List Char) :=
  attachNL (splitNL s)

/-- The push-or-merge step shared by `normalizeDiffs` and the refinement
loops of `granularDiff`: appending an op merges it into the last output
op when the codes agree. -/
def pushMerge (out : List DiffOp) (d : DiffOp) : List DiffOp :=
  match out.getLast? with
  | some (op2, s2) =>
    if op2 = d.1 then out.dropLast ++ [(op2, s2 ++ d.2)] else out ++ [d]
  | none => [d]

/-- `normalizeDiffs`: drop empty payloads and merge runs of the same op
code. -/
def normalizeDiffs (diffs : List DiffOp) : List DiffOp :=
  diffs.foldl (fun out d => if d.2 = [] then out else pushMerge out d) []

/-- `for (const d of ds) { merge-push d into out }` of `granularDiff`. -/
def mergeAppend (out : List DiffOp) (ds : List DiffOp) : List DiffOp :=
  ds.foldl pushMerge out

/-- `commonPrefixLen` on arrays. -/
def commonPrefixLen [DecidableEq α] : List α → List α → Nat
  | a :: as, b :: bs => if a = b then commonPrefixLen as bs + 1 else 0
  | _, _ => 0

/-- `commonSuffixLen` on arrays (indexing from the back). -/
def commonSuffixLen [DecidableEq α] (a b : List α) : Nat :=
  commonPrefixLen a.reverse b.reverse

/-- JavaScript `Array.slice(s, e)`. -/
def jsSlice (l : List α) (s e : Nat) : List α := (l.take e).drop s

/-- JavaScript indexed read `l[i]`: `none` models `undefined` (negative
or out-of-range index). -/
def getJS (l : List α) (i : Int) : Option α :=
  if 0 ≤ i ∧ i < (l.length : Int) then l.get? i.toNat else none

/-- The diagonal index `k + offset` into the `v` array. -/
def vIdx (offset : Nat) (k : Int) : Nat := (k + (offset : Int)).toNat

/-- One functional update of the `v` array (`Int32Array` modelled as a
total zero-initialised function; the theorems never exercise 32-bit
overflow, which would need strings of astronomical length). -/
def vUpd (v : Nat → Int) (i : Nat) (x : Int) : Nat → Int :=
  fun j => if j = i then x else v j

/-- The strict-equality test `a[x] === b[y]` of the snake (`undefined`
is never equal to a defined element). -/
def eqAtJS [DecidableEq α] (a b : List α) (x y : Int) : Bool :=
  match getJS a x, getJS b y with
  | some av, some bv => av == bv
  | _, _ => false

/-- The snake of `myersDiffSeq`:
`while (x < N && y < M && a[x] === b[y]) { x++; y++; }`.  The fuel is an
upper bound on the remaining steps. -/
def snakeGo [DecidableEq α] (a b : List α) : Nat → Int → Int → Int × Int
  | 0, x, y => (x, y)
  | fuel + 1, x, y =>
    if decide (x < (a.length : Int)) && decide (y < (b.length : Int)) &&
        eqAtJS a b x y then
      snakeGo a b fuel (x + 1) (y + 1)
    else (x, y)

/-- `while (x > prevX && y > prevY) { diffs.push([0, a[x-1]]); x--; y--; }`
of `backtrackSeq`.  Items are accumulated by consing, so the accumulator
holds the pushed items in reverse push order — which makes the final
`diffs.reverse()` of the source a no-op here.  Payloads are `Option α`
because the source can push `a[i]`/`b[i]` at an out-of-range index, which
is `undefined` in JavaScript and is later dropped by `Array.join`. -/
def diagWalk [DecidableEq α] (a : List α) (prevX prevY : Int) :
    Nat → Int → Int → List (Int × Option α) → Int × Int × List (Int × Option α)
  | 0, x, y, acc => (x, y, acc)
  | fuel + 1, x, y, acc =>
    if prevX < x ∧ prevY < y then
      diagWalk a prevX prevY fuel (x - 1) (y - 1) ((0, getJS a (x - 1)) :: acc)
    else (x, y, acc)

/-- `while (x > 0 && y > 0) { diffs.push([0, a[x-1]]); x--; y--; }`. -/
def diagWalkZero [DecidableEq α] (a : List α) :
    Nat → Int → Int → List (Int × Option α) → Int × Int × List (Int × Option α)
  | 0, x, y, acc => (x, y, acc)
  | fuel + 1, x, y, acc =>
    if 0 < x ∧ 0 < y then
      diagWalkZero a fuel (x - 1) (y - 1) ((0, getJS a (x - 1)) :: acc)
    else (x, y, acc)

/-- `while (x > 0) { diffs.push([-1, a[--x]]); }` (and its `y` twin with
op +1), pushing `l[i]` for `i = x-1, …, 0`. -/
def drainOps (op : Int) (l : List α) :
    Nat → Int → List (Int × Option α) → List (Int × Option α)
  | 0, _, acc => acc
  | fuel + 1, x, acc =>
    if 0 < x then
      drainOps op l fuel (x - 1) ((op, getJS l (x - 1)) :: acc)
    else acc

/-- `coalesceSeq`: group adjacent items with the same op code and join
each group's payload.  `Array.join('')` renders an `undefined` element as
the empty string, hence the `filterMap id`. -/
def coalesceGo [DecidableEq α] (joiner : List α → List Char)
    (lastOp : Int) (buffer : List (Option α)) :
    List (Int × Option α) → List DiffOp
  | [] => [(lastOp, joiner (buffer.filterMap id))]
  | (op, ch) :: rest =>
    if op = lastOp then coalesceGo joiner lastOp (buffer ++ [ch]) rest
    else (lastOp, joiner (buffer.filterMap id)) :: coalesceGo joiner op [ch] rest

/-- `coalesceSeq` of `diff-core.js`. -/
def coalesceSeq [DecidableEq α] (diffs : List (Int × Option α))
    (joiner : List α → List Char) : List DiffOp :=
  match diffs with
  | [] => []
  | (op0, c0) :: rest => coalesceGo joiner op0 [c0] rest

/-- The descent of `backtrackSeq`: `for (let D = d; D > 0; D--) { … }`. -/
def backtrackGo [DecidableEq α] (a b : List α)
    (trace : List (Nat → Int)) (offset : Nat) :
    Nat → Int → Int → Int → List (Int × Option α) →
      Int × Int × List (Int × Option α)
  | 0, _, x, y, acc => (x, y, acc)
  | Dp + 1, k, x, y, acc =>
    let D := Dp + 1
    let v := trace.getD D (fun _ => 0)
    let kIdx := vIdx offset k
    let prevK : Int :=
      if k = -(D : Int) ∨ (k ≠ (D : Int) ∧ v (kIdx - 1) < v (kIdx + 1)) then
        k + 1
      else k - 1
    let prevX := (trace.getD Dp (fun _ => 0)) (vIdx offset prevK)
    let prevY := prevX - prevK
    let walked := diagWalk a prevX prevY (a.length + b.length + 1) x y acc
    let acc2 :=
      if walked.1 = prevX then (1, getJS b prevY) :: walked.2.2
      else (-1, getJS a prevX) :: walked.2.2
    backtrackGo a b trace offset Dp prevK prevX prevY acc2

/-- `backtrackSeq` of `diff-core.js`. -/
def backtrackSeq [DecidableEq α] (a b : List α)
    (trace : List (Nat → Int)) (k x y : Int) (d : Nat) (offset : Nat)
    (joiner : List α → List Char) : List DiffOp :=
  let bt := backtrackGo a b trace offset d k x y []
  let z := diagWalkZero a (a.length + b.length + 1) bt.1 bt.2.1 bt.2.2
  let afterX := drainOps (-1) a (a.length + 1) z.1 z.2.2
  let afterY := drainOps 1 b (b.length + 1) z.2.1 afterX
  coalesceSeq afterY joiner

/-- The inner `for (let k = -d; k <= d; k += 2)` loop of `myersDiffSeq`:
threads the `v` array through the diagonals and returns the backtracked
diff as soon as the end is reached. -/
def kLoopGo [DecidableEq α] (a b : List α)
    (trace : List (Nat → Int)) (offset d : Nat)
    (joiner : List α → List Char) :
    List Int → (Nat → Int) → (Nat → Int) × Option (List DiffOp)
  | [], v => (v, none)
  | k :: ks, v =>
    let idx := vIdx offset k
    let x : Int :=
      if k = -(d : Int) ∨ (k ≠ (d : Int) ∧ v (idx - 1) < v (idx + 1)) then
        v (idx + 1)
      else v (idx - 1) + 1
    let y : Int := x - k
    let snaked := snakeGo a b (a.length + b.length + 1) x y
    let v2 := vUpd v idx snaked.1
    if (a.length : Int) ≤ snaked.1 ∧ (b.length : Int) ≤ snaked.2 then
      (v2, some (backtrackSeq a b trace k snaked.1 snaked.2 d offset joiner))
    else kLoopGo a b trace offset d joiner ks v2

/-- The outer `for (let d = 0; d <= max; d++)` loop of `myersDiffSeq`.
The fuel counts the remaining depths; the zero case is the source's
unreachable `return [[0, joiner(a)]]` fallback after the loop. -/
def dLoopGo [DecidableEq α] (a b : List α) (offset : Nat)
    (joiner : List α → List Char) :
    Nat → Nat → (Nat → Int) → List (Nat → Int) → List DiffOp
  | 0, _, _, _ => [(0, joiner a)]
  | fuel + 1, d, v, trace =>
    let trace2 := trace ++ [v]
    let ks := (List.range (d + 1)).map (fun j => -(d : Int) + 2 * (j : Int))
    match kLoopGo a b trace2 offset d joiner ks v with
    | (_, some result) => result
    | (v2, none) => dLoopGo a b offset joiner fuel (d + 1) v2 trace2

/-- `myersDiffSeq` of `diff-core.js`: Myers O(ND) diff over arrays, with
`joiner` turning runs of elements into payload strings. -/
def myersDiffSeq [DecidableEq α] (a b : List α)
    (joiner : List α → List Char) : List DiffOp :=
  dLoopGo a b (a.length + b.length) joiner (a.length + b.length + 1) 0
    (fun _ => 0) []

/-- `charDiffStrings`: trimmed character-level Myers diff. -/
def charDiffStrings (a b : List Char) : List DiffOp :=
  let pre := commonPrefixLen a b
  let aMid := a.drop pre
  let bMid := b.drop pre
  let post := commonSuffixLen aMid bMid
  let aC := jsSlice a pre (a.length - post)
  let bC := jsSlice b pre (b.length - post)
  let diffs := myersDiffSeq aC bC (fun l => l)
  let diffs2 := if pre ≠ 0 then ((0 : Int), a.take pre) :: diffs else diffs
  let diffs3 :=
    if post ≠ 0 then diffs2 ++ [((0 : Int), a.drop (a.length - post))]
    else diffs2
  normalizeDiffs diffs3

/-- The paired-chunk refinement loop of `granularDiff`: equal chunks
flush the buffered deletes then inserts; a delete meets a buffered
insert (or an insert meets a buffered delete) and the pair is refined
with a character diff; unmatched chunks are buffered. -/
def granularPair (out : List DiffOp) (delBuf insBuf : List (List Char)) :
    List DiffOp → List DiffOp
  | [] =>
    (out ++ delBuf.map (fun c => ((-1 : Int), c))) ++
      insBuf.map (fun c => ((1 : Int), c))
  | (op, chunk) :: rest =>
    if op = 0 then
      granularPair
        ((out ++ delBuf.map (fun c => ((-1 : Int), c)) ++
            insBuf.map (fun c => ((1 : Int), c))) ++ [(0, chunk)])
        [] [] rest
    else if op = -1 then
      match insBuf with
      | newChunk :: insRest =>
        granularPair (mergeAppend out (charDiffStrings chunk newChunk))
          delBuf insRest rest
      | [] => granularPair out (delBuf ++ [chunk]) insBuf rest
    else if op = 1 then
      match delBuf with
      | oldChunk :: delRest =>
        granularPair (mergeAppend out (charDiffStrings oldChunk chunk))
          delRest insBuf rest
      | [] => granularPair out delBuf (insBuf ++ [chunk]) rest
    else granularPair out delBuf insBuf rest

/-- The common line prefix of `granularDiff`. -/
def granularPre (a b : List Char) : Nat :=
  commonPrefixLen (splitLinesKeepNL a) (splitLinesKeepNL b)

/-- The common line suffix of `granularDiff` (computed on the tails after
the prefix). -/
def granularPost (a b : List Char) : Nat :=
  commonSuffixLen ((splitLinesKeepNL a).drop (granularPre a b))
    ((splitLinesKeepNL b).drop (granularPre a b))

/-- `aMid` of `granularDiff`: the unmatched middle lines of `a`. -/
def granularAMid (a b : List Char) : List (List Char) :=
  jsSlice (splitLinesKeepNL a) (granularPre a b)
    ((splitLinesKeepNL a).length - granularPost a b)

/-- `bMid` of `granularDiff`: the unmatched middle lines of `b`. -/
def granularBMid (a b : List Char) : List (List Char) :=
  jsSlice (splitLinesKeepNL b) (granularPre a b)
    ((splitLinesKeepNL b).length - granularPost a b)

/-- `granularDiff` of `v2/workers/diff-core.js`: line anchoring, then —
when the middle is a single replaced line on each side — a character
diff of that line pair, otherwise line-level Myers with paired-chunk
character refinement. -/
def granularDiff (a b : List Char) : List DiffOp :=
  let aLines := splitLinesKeepNL a
  let pre := granularPre a b
  let post := granularPost a b
  let aMid := granularAMid a b
  let bMid := granularBMid a b
  let out0 : List DiffOp :=
    if pre ≠ 0 then [((0 : Int), (aLines.take pre).flatten)] else []
  let outMid :=
    if aMid ≠ [] ∨ bMid ≠ [] then
      if aMid.length = 1 ∧ bMid.length = 1 then
        mergeAppend out0 (charDiffStrings (aMid.headD []) (bMid.headD []))
      else
        granularPair out0 [] []
          (myersDiffSeq aMid bMid (fun ls => ls.flatten))
    else out0
  if post ≠ 0 then
    outMid ++ [((0 : Int), (aLines.drop (aLines.length - post)).flatten)]
  else outMid

/-- `reconstructNew`: concatenate the payloads of all ops that are not
deletions. -/
def reconstructNew (ops : List DiffOp) : List Char :=
  (ops.map (fun d => if d.1 = -1 then [] else d.2)).flatten

/-- `reconstructOld`: concatenate the payloads of all ops that are not
insertions. -/
def reconstructOld (ops : List DiffOp) : List Char :=
  (ops.map (fun d => if d.1 = 1 then [] else d.2)).flatten

/-- `t.replace(/\r\n/g, '\n')` of the worker-local `canon`. -/
def crlfToLf : List Char → List Char
  | '\r' :: '\n' :: t => '\n' :: crlfToLf t
  | c :: t => c :: crlfToLf t
  | [] => []

/-- `t.replace(/\r/g, '\n')` of the worker-local `canon`. -/
def crToLf (s : List Char) : List Char :=
  s.map (fun c => if c = '\r' then '\n' else c)

/-- `canon` of `v2/workers/diff-core.js`: newline normalization, NBSP to
space, bidi stripping, then NFC (the host normalization, modelled by
`nfcSpec`).  Unlike `canonicalizeText` it never trims trailing blanks. -/
def canon (s : List Char) : List Char :=
  nfcSpec (stripBidi (mapNbsp (crToLf (crlfToLf s))))

/-- `diffStrings` of `v2/workers/diff-core.js`: granular diff when it
round-trips up to `canon`, else a whole-text character diff when that
round-trips, else the last-resort delete/insert pair. -/
def diffStrings (a b : List Char) : List DiffOp :=
  let diffs := normalizeDiffs (granularDiff a b)
  if canon (reconstructNew diffs) = canon b ∧
      canon (reconstructOld diffs) = canon a then
    diffs
  else
    let diffs2 := normalizeDiffs (charDiffStrings a b)
    if canon (reconstructNew diffs2) = canon b ∧
        canon (reconstructOld diffs2) = canon a then
      diffs2
    else
      (if a ≠ [] then [((-1 : Int), a)] else []) ++
        (if b ≠ [] then [((1 : Int), b)] else [])

/-- C1, counterexample: for the non-canonical input pair `("", NBSP)` the
engine emits `[(+1, NBSP)]`, whose new-side reconstruction is the NBSP
itself — not `canonicalize(b)`: the shared canonicalizer maps NBSP to a
space and then trims it as a trailing blank, and the worker's own
`canon` maps it to a plain space. -/
theorem claimC1_counterexample :
    reconstructNew (diffStrings [] [' ']) = [' ']
    ∧ canonicalizeText [' '] = []
    ∧ canon [' '] = [' ']
    ∧ reconstructNew (diffStrings [] [' ']) ≠ canonicalizeText [' ']
    ∧ reconstructNew (diffStrings [] [' ']) ≠ canon [' '] := by
  refine ⟨by decide, by decide, by decide, by decide, by decide⟩

/-- C1 (amended): the diff round-trip holds up to canonicalization — for
every input pair the engine's output reconstructs `canon b` on the new
side and `canon a` on the old side after applying `canon`.  (On already
canonical inputs this is the exact round-trip; the engine validates the
first two strategies with precisely this check and the last-resort
delete/insert pair reconstructs the inputs verbatim.) -/
theorem claimC1_diff_roundtrip (a b : List Char) :
    canon (reconstructNew (diffStrings a b)) = canon b
    ∧ canon (reconstructOld (diffStrings a b)) = canon a := by
  unfold diffStrings
  by_cases h1 : canon (reconstructNew (normalizeDiffs (granularDiff a b))) = canon b
      ∧ canon (reconstructOld (normalizeDiffs (granularDiff a b))) = canon a
  · rw [if_pos h1]
    exact h1
  · rw [if_neg h1]
    by_cases h2 : canon (reconstructNew (normalizeDiffs (charDiffStrings a b))) = canon b
        ∧ canon (reconstructOld (normalizeDiffs (charDiffStrings a b))) = canon a
    · rw [if_pos h2]
      exact h2
    · rw [if_neg h2]
      rcases ha : a with _ | ⟨a0, at0⟩ <;> rcases hb : b with _ | ⟨b0, bt0⟩ <;>
        simp [reconstructNew, reconstructOld]

/-! ## Word-level tokenizer (`workers/diff-core.js`, `toTokens`) -/

/-- Modelled from the spec: the JavaScript `\s` class of the tokenizer
regex (host regex engine), modelled for the whitespace code points that
occur in transcripts: space, tab, LF, CR, VT, FF, NBSP and the BOM. -/
def isJsSpace (c : Char) : Bool :=
  c == ' ' || c == '\t' || c == '\n' || c == '\r' ||
  c.toNat == 0x0B || c.toNat == 0x0C || c.toNat == 0xA0 ||
  c.toNat == 0xFEFF

/-- Modelled from the spec: the Unicode property classes
`\p{L}\p{Nd}\p{M}` of the tokenizer regex (host Unicode tables), modelled
for the ranges transcripts exercise: ASCII letters and digits, the
Hebrew letters U+05D0-U+05EA and the combining marks U+0300-U+036F. -/
def isWordChar (c : Char) : Bool :=
  c.isAlpha || c.isDigit ||
  (0x5D0 ≤ c.toNat && c.toNat ≤ 0x5EA) ||
  (0x300 ≤ c.toNat && c.toNat ≤ 0x36F)

/-- The scan of `toTokens`: one token per step — a whitespace run, a
letter/digit/mark run, or a single other character.  The fuel is an
upper bound on the remaining input length. -/
def toTokensGo : Nat → List Char → List (List Char)
  | 0, _ => []
  | _, [] => []
  | fuel + 1, c :: t =>
    if isJsSpace c then
      (c :: t.takeWhile isJsSpace) :: toTokensGo fuel (t.dropWhile isJsSpace)
    else if isWordChar c then
      (c :: t.takeWhile isWordChar) :: toTokensGo fuel (t.dropWhile isWordChar)
    else [c] :: toTokensGo fuel t

/-- `toTokens` of `workers/diff-core.js`: tokenise by the regex
alternation `\s+ | [\p{L}\p{Nd}\p{M}]+ | [^\s\p{L}\p{Nd}\p{M}]`. -/
def toTokens (s : List Char) : List (List Char) :=
  toTokensGo s.length s

/-- `tokenDiffStrings` of `workers/diff-core.js`: word-token trimming
plus Myers over the middle token sequences. -/
def tokenDiffStrings (a b : List Char) : List DiffOp :=
  let aTokAll := toTokens a
  let bTokAll := toTokens b
  let preTok := commonPrefixLen aTokAll bTokAll
  let aTokTail := aTokAll.drop preTok
  let bTokTail := bTokAll.drop preTok
  let postTok := commonSuffixLen aTokTail bTokTail
  let aTokMid := jsSlice aTokAll preTok (aTokAll.length - postTok)
  let bTokMid := jsSlice bTokAll preTok (bTokAll.length - postTok)
  let diffs := myersDiffSeq aTokMid bTokMid (fun ls => ls.flatten)
  let diffs2 :=
    if preTok ≠ 0 then ((0 : Int), (aTokAll.take preTok).flatten) :: diffs
    else diffs
  let diffs3 :=
    if postTok ≠ 0 then
      diffs2 ++ [((0 : Int), (aTokAll.drop (aTokAll.length - postTok)).flatten)]
    else diffs2
  normalizeDiffs diffs3

/-- C8, counterexample: for the single replaced line pair "cat" → "cart"
the engine (granularDiff of v2/workers/diff-core.js) produces the
character-level refinement, which differs from the word-level refinement
the claim demands. -/
theorem claimC8_counterexample :
    granularDiff (strL "cat") (strL "cart")
      = [(0, strL "ca"), (1, strL "r"), (0, strL "t")]
    ∧ granularDiff (strL "cat") (strL "cart")
      = mergeAppend [] (charDiffStrings (strL "cat") (strL "cart"))
    ∧ tokenDiffStrings (strL "cat") (strL "cart")
      = [(1, strL "cart"), (0, strL "cat")]
    ∧ granularDiff (strL "cat") (strL "cart")
      ≠ mergeAppend [] (tokenDiffStrings (strL "cat") (strL "cart")) := by
  refine ⟨by decide, by decide, by decide, by decide⟩

/-- C8 (amended): whenever the unmatched middle after line anchoring is
exactly one replaced line on each side, `granularDiff` refines that line
pair with the character-level diff `charDiffStrings` — not with a
word-level diff (the word-level single-line refinement lives in the
separate diff worker, not in this engine). -/
theorem claimC8_single_line_char_refine (a b la lb : List Char)
    (ha : granularAMid a b = [la]) (hb : granularBMid a b = [lb]) :
    granularDiff a b =
      (let aLines := splitLinesKeepNL a
       let out0 : List DiffOp :=
         if granularPre a b ≠ 0 then
           [((0 : Int), (aLines.take (granularPre a b)).flatten)]
         else []
       let outMid := mergeAppend out0 (charDiffStrings la lb)
       if granularPost a b ≠ 0 then
         outMid ++
           [((0 : Int),
             (aLines.drop (aLines.length - granularPost a b)).flatten)]
       else outMid) := by
  unfold granularDiff
  rw [ha, hb]
  simp

/-- Witness for C8 at "cat" → "cart": the middle is the single line pair
("cat", "cart") and the engine's output is its character diff merged
after the (empty) anchored prefix. -/
theorem claimC8_witness :
    granularDiff (strL "cat") (strL "cart") =
      (let aLines := splitLinesKeepNL (strL "cat")
       let out0 : List DiffOp :=
         if granularPre (strL "cat") (strL "cart") ≠ 0 then
           [((0 : Int),
             (aLines.take (granularPre (strL "cat") (strL "cart"))).flatten)]
         else []
       let outMid := mergeAppend out0 (charDiffStrings (strL "cat") (strL "cart"))
       if granularPost (strL "cat") (strL "cart") ≠ 0 then
         outMid ++
           [((0 : Int),
             (aLines.drop
               (aLines.length - granularPost (strL "cat") (strL "cart"))).flatten)]
       else outMid) :=
  claimC8_single_line_char_refine (strL "cat") (strL "cart")
    (strL "cat") (strL "cart") (by decide) (by decide)

/-! ## Chain verifier (`v2/history/verify-chain.js`, `verifyChainHash`) -/

/-- A stored transcript version as the verifier reads it. -/
structure VersionRec where
  version : Nat
  text : List Char
  base_sha256 : List Char
deriving DecidableEq, Repr

/-- The outcome of `JSON.parse(e.token_ops || e.dmp_patch || '[]')` for
one edit record: an array of ops, a non-array JSON value, or a parse
error (which the `catch` turns into the empty op list). -/
inductive OpsParse where
  | arr (ops : List DiffOp)
  | nonArray
  | parseError
deriving DecidableEq, Repr

/-- A stored edit record as the verifier reads it. -/
structure EditRecord where
  child_version : Int
  token_ops : OpsParse
deriving DecidableEq, Repr

/-- The ops the verifier ends up with for a record: `none` exactly when
`Array.isArray(ops)` fails, i.e. when the JSON parsed to a non-array
value; a parse error is caught and coerced to the empty array. -/
def parsedOps (e : EditRecord) : Option (List DiffOp) :=
  match e.token_ops with
  | .arr ops => some ops
  | .nonArray => none
  | .parseError => some []

/-- The verifier's result. -/
inductive VerifyResult where
  | okNoVersion
  | missingV1
  | badOps (atV : Int)
  | opsDontMatchParent (atV : Int)
  | final (ok : Bool) (got expected : List Char)
deriving DecidableEq, Repr

/-- The replay loop of `verifyChainHash` (verify-chain.js lines 26-33). -/
def verifyChainLoop (text : List Char) :
    List EditRecord → Except VerifyResult (List Char)
  | [] => .ok text
  | e :: rest =>
    match parsedOps e with
    | none => .error (.badOps e.child_version)
    | some ops =>
      if canonicalizeText (reconstructOld ops) = text then
        verifyChainLoop (reconstructNew ops) rest
      else .error (.opsDontMatchParent e.child_version)

/-- The ascending sort of the edit records,
`edits.sort((a, b) => a.child_version - b.child_version)` (a stable
comparator sort). -/
def sortEdits (edits : List EditRecord) : List EditRecord :=
  edits.insertionSort (fun e1 e2 => e1.child_version ≤ e2.child_version)

/-- `verifyChainHash` of `v2/history/verify-chain.js`, with the SHA-256
function (the host's `crypto.subtle`) as a parameter: replay v1 through
the sorted edit records and compare the final hash with the latest
version's `base_sha256`.  The final `ok` is
`!!expected && h === expected`. -/
def verifyChainHash (hash : List Char → List Char)
    (latest v1 : Option VersionRec) (edits : List EditRecord) :
    VerifyResult :=
  match latest with
  | none => .okNoVersion
  | some latestV =>
    match v1 with
    | none => .missingV1
    | some v1V =>
      match verifyChainLoop (canonicalizeText v1V.text) (sortEdits edits) with
      | .error r => r
      | .ok text =>
        let h := hash text
        let expected := latestV.base_sha256
        .final (decide (expected ≠ []) && decide (h = expected)) h expected

/-- Modelled from claim C2's words: the same verifier, but returning
`badOps` for every record whose ops "do not parse to an array" — parse
errors included — and reporting ok exactly when the hash matches. -/
def verifyChainClaim (hash : List Char → List Char)
    (latest v1 : Option VersionRec) (edits : List EditRecord) :
    VerifyResult :=
  match latest with
  | none => .okNoVersion
  | some latestV =>
    match v1 with
    | none => .missingV1
    | some v1V =>
      match claimLoop (canonicalizeText v1V.text) (sortEdits edits) with
      | .error r => r
      | .ok text =>
        .final (decide (hash text = latestV.base_sha256)) (hash text)
          latestV.base_sha256
where
  claimLoop (text : List Char) :
      List EditRecord → Except VerifyResult (List Char)
    | [] => .ok text
    | e :: rest =>
      match e.token_ops with
      | .arr ops =>
        if canonicalizeText (reconstructOld ops) = text then
          claimLoop (reconstructNew ops) rest
        else .error (.opsDontMatchParent e.child_version)
      | _ => .error (.badOps e.child_version)

/-- C2, counterexample: an edit record whose `token_ops` do not parse at
all.  The claim says `Err{bad-ops}`; the source catches the parse error,
substitutes the empty op array — which IS an array — and instead reports
`ops-dont-match-parent` (the empty replay does not reproduce "x"). -/
theorem claimC2_counterexample :
    verifyChainHash (fun s => 'h' :: s)
        (some ⟨1, strL "x", strL "hx"⟩) (some ⟨1, strL "x", strL "hx"⟩)
        [⟨2, OpsParse.parseError⟩]
      = VerifyResult.opsDontMatchParent 2
    ∧ verifyChainClaim (fun s => 'h' :: s)
        (some ⟨1, strL "x", strL "hx"⟩) (some ⟨1, strL "x", strL "hx"⟩)
        [⟨2, OpsParse.parseError⟩]
      = VerifyResult.badOps 2
    ∧ VerifyResult.opsDontMatchParent 2 ≠ VerifyResult.badOps 2 := by
  refine ⟨by decide, by decide, by decide⟩

/-- One replay step: the text after processing one edit record (the
`text = reconNew(ops)` assignment; records that fail never advance). -/
def stepText (t : List Char) (e : EditRecord) : List Char :=
  match parsedOps e with
  | some ops => reconstructNew ops
  | none => t

/-- Whether the verifier accepts one record against the accumulated
text: the ops are an array and their old side canonicalizes to it. -/
def goodStepB (t : List Char) (e : EditRecord) : Bool :=
  match parsedOps e with
  | some ops => canonicalizeText (reconstructOld ops) == t
  | none => false

/-- The replayed text after a list of records. -/
def replayEdits (t : List Char) (es : List EditRecord) : List Char :=
  es.foldl stepText t

/-- Every record in sequence is accepted. -/
def allGood (t : List Char) : List EditRecord → Bool
  | [] => true
  | e :: rest => goodStepB t e && allGood (stepText t e) rest

theorem verifyChainLoop_ok (es : List EditRecord) :
    ∀ t, allGood t es = true → verifyChainLoop t es = .ok (replayEdits t es) := by
  induction es with
  | nil => intro t _; rfl
  | cons e rest ih =>
    intro t hg
    simp only [allGood, Bool.and_eq_true] at hg
    rcases hops : parsedOps e with _ | ops
    · rw [goodStepB, hops] at hg
      simp at hg
    · have hmatch : canonicalizeText (reconstructOld ops) = t := by
        have := hg.1
        rw [goodStepB, hops] at this
        simpa using this
      have hrest := ih (stepText t e) hg.2
      simp only [verifyChainLoop, hops, hmatch, if_pos]
      rw [show reconstructNew ops = stepText t e by rw [stepText, hops]]
      rw [hrest]
      simp [replayEdits, List.foldl_cons]

theorem verifyChainLoop_firstBad (pre : List EditRecord) :
    ∀ t e post, allGood t pre = true →
    goodStepB (replayEdits t pre) e = false →
    verifyChainLoop t (pre ++ e :: post)
      = .error (match parsedOps e with
          | none => VerifyResult.badOps e.child_version
          | some _ => VerifyResult.opsDontMatchParent e.child_version) := by
  induction pre with
  | nil =>
    intro t e post _ hbad
    rcases hops : parsedOps e with _ | ops
    · simp [verifyChainLoop, hops]
    · rw [goodStepB, hops, replayEdits, List.foldl_nil] at hbad
      have hne : ¬ (canonicalizeText (reconstructOld ops) = t) := by
        simpa using hbad
      simp [verifyChainLoop, hops, hne]
  | cons e0 pre2 ih =>
    intro t e post hg hbad
    simp only [allGood, Bool.and_eq_true] at hg
    rcases hops : parsedOps e0 with _ | ops
    · rw [goodStepB, hops] at hg
      simp at hg
    · have hmatch : canonicalizeText (reconstructOld ops) = t := by
        have := hg.1
        rw [goodStepB, hops] at this
        simpa using this
      have hrepl : replayEdits t (e0 :: pre2) = replayEdits (stepText t e0) pre2 := by
        simp [replayEdits, List.foldl_cons]
      rw [hrepl] at hbad
      have := ih (stepText t e0) e post hg.2 hbad
      simp only [List.cons_append, verifyChainLoop, hops, hmatch, if_pos]
      rw [show reconstructNew ops = stepText t e0 by rw [stepText, hops]]
      exact this

/-- C2 (amended): chain verification processes the edit records in
ascending `child_version` (a permutation of the inputs), starting from
`canonicalize(v1.text)`.  At the first record the replay rejects, it
reports `bad-ops` when the ops parsed to a non-array JSON value and
`ops-dont-match-parent` when the canonicalized old side disagrees with
the accumulated text (an unparseable record is coerced to the empty op
array, so it surfaces as `ops-dont-match-parent`, not `bad-ops`).  When
every record is accepted it reports ok exactly when the SHA-256 of the
final replayed text equals the latest version's `base_sha256`. -/
theorem claimC2_chain_verification (hash : List Char → List Char)
    (L V : VersionRec) (edits : List EditRecord)
    (hhash : ∀ s, hash s ≠ []) :
    (List.Pairwise
        (fun e1 e2 : EditRecord => e1.child_version ≤ e2.child_version)
        (sortEdits edits)
      ∧ (sortEdits edits).Perm edits)
    ∧ (allGood (canonicalizeText V.text) (sortEdits edits) = true →
        verifyChainHash hash (some L) (some V) edits
          = VerifyResult.final
              (decide (hash (replayEdits (canonicalizeText V.text)
                  (sortEdits edits)) = L.base_sha256))
              (hash (replayEdits (canonicalizeText V.text) (sortEdits edits)))
              L.base_sha256)
    ∧ (∀ pre e post, sortEdits edits = pre ++ e :: post →
        allGood (canonicalizeText V.text) pre = true →
        goodStepB (replayEdits (canonicalizeText V.text) pre) e = false →
        verifyChainHash hash (some L) (some V) edits
          = (match parsedOps e with
             | none => VerifyResult.badOps e.child_version
             | some _ => VerifyResult.opsDontMatchParent e.child_version)) := by
  refine ⟨⟨?_, ?_⟩, ?_, ?_⟩
  · haveI : IsTotal EditRecord
        (fun e1 e2 => e1.child_version ≤ e2.child_version) :=
      ⟨fun a b => le_total a.child_version b.child_version⟩
    haveI : IsTrans EditRecord
        (fun e1 e2 => e1.child_version ≤ e2.child_version) :=
      ⟨fun a b c h1 h2 => le_trans h1 h2⟩
    exact List.sorted_insertionSort _ edits
  · exact List.perm_insertionSort _ edits
  · intro hg
    have hloop := verifyChainLoop_ok (sortEdits edits) _ hg
    rw [verifyChainHash, hloop]
    have hne := hhash (replayEdits (canonicalizeText V.text) (sortEdits edits))
    by_cases hexp : L.base_sha256 = []
    · have h1 : decide (L.base_sha256 ≠ []) = false := by simp [hexp]
      have h2 : decide (hash (replayEdits (canonicalizeText V.text)
          (sortEdits edits)) = L.base_sha256) = false := by
        simp [hexp, hne]
      simp only [h1, h2, Bool.false_and]
    · have h1 : decide (L.base_sha256 ≠ []) = true := by simp [hexp]
      simp only [h1, Bool.true_and]
  · intro pre e post hsplit hg hbad
    have hloop := verifyChainLoop_firstBad pre _ e post hg hbad
    rw [verifyChainHash, hsplit, hloop]

/-- Witness for C2: one well-formed edit record taking "x" to "x"; the
verifier reports ok with matching hashes. -/
theorem claimC2_witness :
    verifyChainHash (fun s => 'h' :: s) (some ⟨2, strL "x", strL "hx"⟩)
        (some ⟨1, strL "x", strL "hx"⟩)
        [⟨2, OpsParse.arr [(0, strL "x")]⟩]
      = VerifyResult.final
          (decide ((fun s => 'h' :: s)
              (replayEdits (canonicalizeText (strL "x"))
                (sortEdits [⟨2, OpsParse.arr [(0, strL "x")]⟩])) = strL "hx"))
          ((fun s => 'h' :: s)
            (replayEdits (canonicalizeText (strL "x"))
              (sortEdits [⟨2, OpsParse.arr [(0, strL "x")]⟩])))
          (strL "hx") :=
  (claimC2_chain_verification (fun s => 'h' :: s) ⟨2, strL "x", strL "hx"⟩
      ⟨1, strL "x", strL "hx"⟩ [⟨2, OpsParse.arr [(0, strL "x")]⟩]
      (fun s => by simp)).2.1 (by decide)

/-! ## Patch composer (`v2/ui/controls.js`, `tryMerge`: `toEdits`,
`overlaps`, combined sort-and-splice) -/

/-- A positional edit `{start, end, ins}` (the source field `end` is
called `stop` here because `end` is reserved in Lean). -/
structure Edit where
  start : Nat
  stop : Nat
  ins : List Char
deriving DecidableEq, Repr

/-- The cursor walk of `toEdits`: `pos` tracks the position in the base
text, `pending` an open deletion `[s, s+l)`. -/
def toEditsGo : Nat → Option (Nat × Nat) → List DiffOp → List Edit
  | _, pending, [] =>
    (match pending with
     | some (s, l) => [⟨s, s + l, []⟩]
     | none => [])
  | pos, pending, (op, str) :: rest =>
    if op = 0 then
      (match pending with
       | some (s, l) => [⟨s, s + l, []⟩]
       | none => []) ++ toEditsGo (pos + str.length) none rest
    else if op = -1 then
      match pending with
      | some (s, l) => toEditsGo (pos + str.length) (some (s, l + str.length)) rest
      | none => toEditsGo (pos + str.length) (some (pos, str.length)) rest
    else if op = 1 then
      match pending with
      | some (s, l) => ⟨s, s + l, str⟩ :: toEditsGo pos none rest
      | none => ⟨pos, pos, str⟩ :: toEditsGo pos none rest
    else toEditsGo pos pending rest

/-- `toEdits(base, diffs)` of `tryMerge` (the `base` argument is unused
in the source as well). -/
def toEdits (base : List Char) (diffs : List DiffOp) : List Edit :=
  toEditsGo 0 none diffs

/-- `overlaps` of `tryMerge`. -/
def overlaps (a b : Edit) : Bool :=
  let aIns := a.start == a.stop
  let bIns := b.start == b.stop
  if aIns && bIns then a.start == b.start
  else if aIns then decide (b.start ≤ a.start) && decide (a.start < b.stop)
  else if bIns then decide (a.start ≤ b.start) && decide (b.start < a.stop)
  else decide (a.start < b.stop) && decide (b.start < a.stop)

/-- One splice
`merged.slice(0, e.start) + e.ins + merged.slice(e.end)`. -/
def spliceEdit (s : List Char) (e : Edit) : List Char :=
  s.take e.start ++ e.ins ++ s.drop e.stop

/-- The comparator ordering of
`combined.sort((a, b) => b.start - a.start || b.end - a.end)`:
descending by start, ties broken by descending end. -/
def descLE (a b : Edit) : Prop :=
  b.start < a.start ∨ (b.start = a.start ∧ b.stop ≤ a.stop)

instance : DecidableRel descLE := fun a b => by
  unfold descLE
  exact inferInstance

/-- `apply`: sort the edits descending and splice them into the base
left-fold-wise (`for (const e of combined) merged = …`). -/
def applyEditsDesc (base : List Char) (es : List Edit) : List Char :=
  (es.insertionSort descLE).foldl spliceEdit base

/-- The merge application of `tryMerge`:
`combined = editsLatest.concat(editsMine).sort(…)` then splice. -/
def tryMergeApply (base : List Char) (editsLatest editsMine : List Edit) :
    List Char :=
  applyEditsDesc base (editsLatest ++ editsMine)

/-- Total inserted length of the edits of `es` that lie entirely before
position `x` in the base. -/
def insBefore (es : List Edit) (x : Nat) : Nat :=
  ((es.filter (fun e => decide (e.stop ≤ x))).map (fun e => e.ins.length)).sum

/-- Total deleted length of the edits of `es` that lie entirely before
position `x` in the base. -/
def delBefore (es : List Edit) (x : Nat) : Nat :=
  ((es.filter (fun e => decide (e.stop ≤ x))).map (fun e => e.stop - e.start)).sum

/-- Total deleted length of a list of edits. -/
def delTotal (es : List Edit) : Nat :=
  (es.map (fun e => e.stop - e.start)).sum

/-- Total inserted length of a list of edits. -/
def insTotal (es : List Edit) : Nat :=
  (es.map (fun e => e.ins.length)).sum

/-- Modelled from the spec (claim C4, "three-way merge produced by
sequentially applying either order"): re-anchoring an edit of the second
list through the edits of the first list that lie before it — its
position moves by the inserted minus the deleted length of those
edits. -/
def shiftEdit (es : List Edit) (f : Edit) : Edit :=
  ⟨f.start + insBefore es f.start - delBefore es f.start,
   f.stop + insBefore es f.start - delBefore es f.start,
   f.ins⟩

/-- Modelled from the spec (claim C4): sequential application — apply
the first edit list with the spec's `apply` (sort descending, splice),
then splice the second list's re-anchored edits from right to left
(descending position, which is what the descending sort performs on an
ordered script). -/
def seqApply (base : List Char) (first second : List Edit) : List Char :=
  (second.map (shiftEdit first)).foldr
    (fun f acc => spliceEdit acc f) (applyEditsDesc base first)

/-- Positional order on edits: strictly before by start, ties by end. -/
def lexLt (e f : Edit) : Prop :=
  e.start < f.start ∨ (e.start = f.start ∧ e.stop < f.stop)

/-- `e` is sequenceable strictly before `f`. -/
def seqBefore (e f : Edit) : Prop := e.stop ≤ f.start ∧ lexLt e f

/-- Interval chain with bounds: starting from cursor `c`, the edits are
ordered, non-overlapping intervals inside `[c, n]`. -/
def ChainB (n : Nat) : Nat → List Edit → Prop
  | _, [] => True
  | c, e :: es => c ≤ e.start ∧ e.start ≤ e.stop ∧ e.stop ≤ n ∧ ChainB n e.stop es

/-- Normalized diff ops as produced by the worker (`normalizeDiffs`):
codes in {-1, 0, 1}, nonempty payloads, adjacent ops distinct. -/
def NormOps (d : List DiffOp) : Prop :=
  (∀ p ∈ d, (p.1 = -1 ∨ p.1 = 0 ∨ p.1 = 1) ∧ p.2 ≠ []) ∧
  d.Chain' (fun p q => p.1 ≠ q.1)

/-- Base-text length consumed by a diff: the total payload length of the
non-insert ops. -/
def oldLen (d : List DiffOp) : Nat :=
  (d.map (fun p => if p.1 = 1 then 0 else p.2.length)).sum

/-- Lowest base position an edit emitted by `toEditsGo pos pending` can
start at. -/
def pendLow (pos : Nat) : Option (Nat × Nat) → Nat
  | some (s, _) => s
  | none => pos

/-- The first op is not an insert. -/
def headNot1 : List DiffOp → Prop
  | [] => True
  | p :: _ => p.1 ≠ 1

theorem oldLen_eq_length (d : List DiffOp) :
    oldLen d = (reconstructOld d).length := by
  induction d with
  | nil => rfl
  | cons p rest ih =>
    simp only [oldLen, reconstructOld, List.map_cons, List.sum_cons,
      List.flatten_cons, List.length_append] at *
    by_cases h : p.1 = 1 <;> simp [h, ih]

theorem toEditsGo_wf (d : List DiffOp) :
    ∀ (pos : Nat) (pending : Option (Nat × Nat)),
    (∀ p ∈ d, (p.1 = -1 ∨ p.1 = 0 ∨ p.1 = 1) ∧ p.2 ≠ []) →
    d.Chain' (fun p q => p.1 ≠ q.1) →
    (∀ s l, pending = some (s, l) → s + l = pos ∧ 0 < l) →
    (∀ e ∈ toEditsGo pos pending d,
       pendLow pos pending ≤ e.start ∧ e.start ≤ e.stop ∧
       e.stop ≤ pos + oldLen d ∧ (e.start = e.stop → e.ins ≠ [])) ∧
    (toEditsGo pos pending d).Pairwise seqBefore ∧
    ((pending.isSome = true ∨ headNot1 d) →
      ∀ e ∈ toEditsGo pos pending d,
        ¬(e.start = pendLow pos pending ∧ e.stop = pendLow pos pending)) := by
  induction d with
  | nil =>
    intro pos pending hnorm hchain hpend
    match pending with
    | none => simp [toEditsGo]
    | some (s, l) =>
      obtain ⟨hsl, hl⟩ := hpend s l rfl
      refine ⟨?_, ?_, ?_⟩
      · intro e he
        simp only [toEditsGo, List.mem_singleton] at he
        subst he
        simp only [pendLow, oldLen, List.map_nil, List.sum_nil]
        refine ⟨le_refl _, by omega, by omega, by omega⟩
      · simp [toEditsGo]
      · intro _ e he
        simp only [toEditsGo, List.mem_singleton] at he
        subst he
        simp only [pendLow]
        omega
  | cons p rest ih =>
    intro pos pending hnorm hchain hpend
    obtain ⟨op, str⟩ := p
    obtain ⟨hop, hstr⟩ := hnorm (op, str) (List.mem_cons_self _ _)
    have hnorm' : ∀ q ∈ rest, (q.1 = -1 ∨ q.1 = 0 ∨ q.1 = 1) ∧ q.2 ≠ [] :=
      fun q hq => hnorm q (List.mem_cons_of_mem _ hq)
    have hchain' : rest.Chain' (fun p q => p.1 ≠ q.1) := hchain.tail
    have hL : 0 < str.length := List.length_pos.mpr hstr
    simp only at hop
    have holdLen : oldLen ((op, str) :: rest)
        = (if op = 1 then 0 else str.length) + oldLen rest := by
      simp [oldLen]
    rcases hop with h1 | h0 | hins
    · -- delete op
      subst h1
      match pending, hpend with
      | some (s, l), hpend =>
        obtain ⟨hsl, hl⟩ := hpend s l rfl
        have hgo : toEditsGo pos (some (s, l)) ((-1, str) :: rest)
            = toEditsGo (pos + str.length) (some (s, l + str.length)) rest := by
          simp [toEditsGo]
        have hih := ih (pos + str.length) (some (s, l + str.length)) hnorm' hchain'
          (by intro s' l' h; injection h with h; injection h with h1 h2
              subst h1; subst h2; omega)
        simp only [hgo]
        refine ⟨?_, hih.2.1, ?_⟩
        · intro e he
          obtain ⟨ha, hb, hc, hd⟩ := hih.1 e he
          simp only [pendLow] at ha ⊢
          rw [holdLen]
          simp only [if_neg (by decide : ¬ (-1 : Int) = 1)]
          exact ⟨ha, hb, by omega, hd⟩
        · intro _ e he
          have := hih.2.2 (Or.inl rfl) e he
          simpa [pendLow] using this
      | none, hpend =>
        have hgo : toEditsGo pos none ((-1, str) :: rest)
            = toEditsGo (pos + str.length) (some (pos, str.length)) rest := by
          simp [toEditsGo]
        have hih := ih (pos + str.length) (some (pos, str.length)) hnorm' hchain'
          (by intro s' l' h; injection h with h; injection h with h1 h2
              subst h1; subst h2; omega)
        simp only [hgo]
        refine ⟨?_, hih.2.1, ?_⟩
        · intro e he
          obtain ⟨ha, hb, hc, hd⟩ := hih.1 e he
          simp only [pendLow] at ha ⊢
          rw [holdLen]
          simp only [if_neg (by decide : ¬ (-1 : Int) = 1)]
          exact ⟨ha, hb, by omega, hd⟩
        · intro _ e he
          have := hih.2.2 (Or.inl rfl) e he
          simpa [pendLow] using this
    · -- equal op
      subst h0
      have hih := ih (pos + str.length) none hnorm' hchain'
        (by intro s' l' h; exact absurd h (by simp))
      have hbound : pos + oldLen ((0, str) :: rest)
          = (pos + str.length) + oldLen rest := by
        rw [holdLen]; simp only [if_neg (by decide : ¬ (0 : Int) = 1)]; omega
      match pending, hpend with
      | some (s, l), hpend =>
        obtain ⟨hsl, hl⟩ := hpend s l rfl
        have hgo : toEditsGo pos (some (s, l)) ((0, str) :: rest)
            = ⟨s, s + l, []⟩ :: toEditsGo (pos + str.length) none rest := by
          simp [toEditsGo]
        simp only [hgo]
        refine ⟨?_, ?_, ?_⟩
        · intro e he
          rcases List.mem_cons.mp he with he | he
          · subst he
            simp only [pendLow]
            refine ⟨le_refl _, by omega, by omega, by omega⟩
          · obtain ⟨ha, hb, hc, hd⟩ := hih.1 e he
            simp only [pendLow] at ha ⊢
            exact ⟨by omega, hb, by omega, hd⟩
        · refine List.Pairwise.cons ?_ hih.2.1
          intro e he
          obtain ⟨ha, hb, hc, hd⟩ := hih.1 e he
          simp only [pendLow] at ha
          refine ⟨by simp; omega, Or.inl (by simp; omega)⟩
        · intro _ e he
          rcases List.mem_cons.mp he with he | he
          · subst he; simp only [pendLow]; omega
          · obtain ⟨ha, hb, hc, hd⟩ := hih.1 e he
            simp only [pendLow] at ha ⊢
            omega
      | none, hpend =>
        have hgo : toEditsGo pos none ((0, str) :: rest)
            = toEditsGo (pos + str.length) none rest := by
          simp [toEditsGo]
        simp only [hgo]
        refine ⟨?_, hih.2.1, ?_⟩
        · intro e he
          obtain ⟨ha, hb, hc, hd⟩ := hih.1 e he
          simp only [pendLow] at ha ⊢
          exact ⟨by omega, hb, by omega, hd⟩
        · intro _ e he
          obtain ⟨ha, hb, hc, hd⟩ := hih.1 e he
          simp only [pendLow] at ha ⊢
          omega
    · -- insert op
      subst hins
      have hrestNot1 : headNot1 rest := by
        match rest, hchain with
        | [], _ => trivial
        | q :: rest', hch =>
          have := List.chain'_cons.mp hch
          exact fun h => this.1 h.symm
      have hih := ih pos none hnorm' hchain'
        (by intro s' l' h; exact absurd h (by simp))
      have hbound : pos + oldLen ((1, str) :: rest) = pos + oldLen rest := by
        rw [holdLen]; simp
      match pending, hpend with
      | some (s, l), hpend =>
        obtain ⟨hsl, hl⟩ := hpend s l rfl
        have hgo : toEditsGo pos (some (s, l)) ((1, str) :: rest)
            = ⟨s, s + l, str⟩ :: toEditsGo pos none rest := by
          simp [toEditsGo]
        simp only [hgo]
        refine ⟨?_, ?_, ?_⟩
        · intro e he
          rcases List.mem_cons.mp he with he | he
          · subst he
            simp only [pendLow]
            refine ⟨le_refl _, by omega, by omega, fun _ => hstr⟩
          · obtain ⟨ha, hb, hc, hd⟩ := hih.1 e he
            simp only [pendLow] at ha ⊢
            exact ⟨by omega, hb, by omega, hd⟩
        · refine List.Pairwise.cons ?_ hih.2.1
          intro e he
          obtain ⟨ha, hb, hc, hd⟩ := hih.1 e he
          simp only [pendLow] at ha
          refine ⟨by simp; omega, Or.inl (by simp; omega)⟩
        · intro _ e he
          rcases List.mem_cons.mp he with he | he
          · subst he; simp only [pendLow]; omega
          · obtain ⟨ha, hb, hc, hd⟩ := hih.1 e he
            simp only [pendLow] at ha ⊢
            omega
      | none, hpend =>
        have hgo : toEditsGo pos none ((1, str) :: rest)
            = ⟨pos, pos, str⟩ :: toEditsGo pos none rest := by
          simp [toEditsGo]
        simp only [hgo]
        refine ⟨?_, ?_, ?_⟩
        · intro e he
          rcases List.mem_cons.mp he with he | he
          · subst he
            simp only [pendLow]
            exact ⟨le_refl _, le_refl _, by omega, fun _ => hstr⟩
          · obtain ⟨ha, hb, hc, hd⟩ := hih.1 e he
            simp only [pendLow] at ha ⊢
            exact ⟨ha, hb, by omega, hd⟩
        · refine List.Pairwise.cons ?_ hih.2.1
          intro e he
          obtain ⟨ha, hb, hc, hd⟩ := hih.1 e he
          have hnoins := hih.2.2 (Or.inr hrestNot1) e he
          simp only [pendLow] at ha hnoins
          constructor
          · simp; omega
          · rcases Nat.lt_or_ge pos e.start with h | h
            · exact Or.inl (by simp; omega)
            · have : e.start = pos := by omega
              refine Or.inr ⟨by simp [this], by simp; omega⟩
        · intro hcond
          rcases hcond with h | h
          · simp at h
          · exact absurd rfl h

theorem overlaps_false_orders (e f : Edit)
    (he : e.start ≤ e.stop) (hf : f.start ≤ f.stop)
    (hov : overlaps e f = false) : seqBefore e f ∨ seqBefore f e := by
  by_cases hei : e.start = e.stop <;> by_cases hfi : f.start = f.stop <;>
    simp [overlaps, hei, hfi] at hov <;>
    simp only [seqBefore, lexLt] <;> omega

theorem chainB_cons {n c : Nat} {e : Edit} {es : List Edit} :
    ChainB n c (e :: es) ↔
      c ≤ e.start ∧ e.start ≤ e.stop ∧ e.stop ≤ n ∧ ChainB n e.stop es :=
  Iff.rfl

theorem chainB_le {n c c2 : Nat} {es : List Edit}
    (h : c2 ≤ c) (hch : ChainB n c es) : ChainB n c2 es := by
  cases es with
  | nil => trivial
  | cons e es' =>
    obtain ⟨h1, h2⟩ := chainB_cons.mp hch
    exact chainB_cons.mpr ⟨le_trans h h1, h2⟩

theorem chainB_head_start {n c : Nat} {es : List Edit} (hch : ChainB n c es) :
    ∀ f, es.head? = some f → c ≤ f.start := by
  cases es with
  | nil => intro f hf; simp at hf
  | cons e es' =>
    intro f hf
    simp only [List.head?_cons, Option.some_inj] at hf
    subst hf
    exact (chainB_cons.mp hch).1

/-- Splice semantics on an ascending edit script: walk the base left to
right, copying the untouched spans and substituting each edit. -/
def render (base : List Char) : Nat → List Edit → List Char
  | cur, [] => base.drop cur
  | cur, e :: es => (base.take e.start).drop cur ++ e.ins ++ render base e.stop es

theorem dropSplit {α : Type} (l : List α) (x cur : Nat) (h : x ≤ cur) :
    l.drop x = (l.take cur).drop x ++ l.drop cur := by
  conv_lhs => rw [← List.take_append_drop cur l]
  rw [List.drop_append_eq_append_drop]
  rcases le_or_lt x (l.take cur).length with h1 | h1
  · rw [Nat.sub_eq_zero_of_le h1, List.drop_zero]
  · have hlen : (l.take cur).length = min cur l.length := List.length_take cur l
    have hnil : l.drop cur = [] := List.drop_eq_nil_of_le (by omega)
    rw [hnil]
    simp

theorem render_anchor (base : List Char) (cur c2 : Nat) (es : List Edit)
    (h : cur ≤ c2) (hes : ∀ e, es.head? = some e → c2 ≤ e.start) :
    render base cur es = (base.take c2).drop cur ++ render base c2 es := by
  cases es with
  | nil =>
    simp only [render]
    exact dropSplit base cur c2 h
  | cons e es' =>
    have hc2 : c2 ≤ e.start := hes e rfl
    simp only [render]
    have hsplit := dropSplit (base.take e.start) cur c2 h
    rw [List.take_take, min_eq_left hc2] at hsplit
    rw [hsplit]
    simp [List.append_assoc]

theorem takePlus (P Y : List Char) (s : Nat) :
    (P ++ Y).take (P.length + s) = P ++ Y.take s := by
  rw [List.take_append_eq_append_take]
  have h1 : P.take (P.length + s) = P := List.take_of_length_le (by omega)
  rw [h1, Nat.add_sub_cancel_left]

theorem dropPlus (P Y : List Char) (c : Nat) :
    (P ++ Y).drop (P.length + c) = Y.drop c := by
  rw [List.drop_append_eq_append_drop]
  have h1 : P.drop (P.length + c) = [] := List.drop_eq_nil_of_le (by omega)
  rw [h1, Nat.add_sub_cancel_left, List.nil_append]

theorem render_skip (P Y : List Char) (c : Nat) (G : List Edit) :
    render (P ++ Y) (P.length + c)
      (G.map (fun g => ⟨P.length + g.start, P.length + g.stop, g.ins⟩))
      = render Y c G := by
  induction G generalizing c with
  | nil => simp only [render, List.map_nil, dropPlus]
  | cons g G' ih =>
    simp only [render, List.map_cons]
    rw [takePlus, dropPlus, ih]

theorem render_rebase (base : List Char) (n : Nat) (F : List Edit) :
    ∀ (cur c2 : Nat), cur ≤ c2 → ChainB n c2 F →
    render (base.drop cur) (c2 - cur)
      (F.map (fun f => ⟨f.start - cur, f.stop - cur, f.ins⟩))
      = render base c2 F := by
  induction F with
  | nil =>
    intro cur c2 h _
    simp only [render, List.map_nil, List.drop_drop]
    rw [show cur + (c2 - cur) = c2 from by omega]
  | cons f F' ih =>
    intro cur c2 h hch
    obtain ⟨h1, h2, h3, h4⟩ := chainB_cons.mp hch
    simp only [render, List.map_cons]
    have e1 : ((base.drop cur).take (f.start - cur)).drop (c2 - cur)
        = (base.take f.start).drop c2 := by
      rw [← List.drop_take, List.drop_drop,
        show cur + (c2 - cur) = c2 from by omega]
    rw [e1, ih cur f.stop (by omega) h4]

theorem chainB_reanchor {n c c2 : Nat} {e : Edit} {es : List Edit}
    (h : ChainB n c (e :: es)) (h2 : c2 ≤ e.start) : ChainB n c2 (e :: es) :=
  chainB_cons.mpr ⟨h2, (chainB_cons.mp h).2⟩

theorem foldr_splice_eq_render (base : List Char) (es : List Edit)
    (h : ChainB base.length 0 es) :
    es.foldr (fun e acc => spliceEdit acc e) base = render base 0 es := by
  induction es with
  | nil => simp [render]
  | cons e es' ih =>
    obtain ⟨-, hse, hsb, hch⟩ := chainB_cons.mp h
    rw [List.foldr_cons, ih (chainB_le (Nat.zero_le _) hch)]
    rw [render_anchor base 0 e.stop es' (Nat.zero_le _)
      (chainB_head_start hch), List.drop_zero]
    have hlen : (base.take e.stop).length = e.stop := by
      rw [List.length_take]; omega
    simp only [spliceEdit, render, List.drop_zero]
    have t1 : (base.take e.stop ++ render base e.stop es').take e.start
        = base.take e.start := by
      rw [List.take_append_eq_append_take, hlen, List.take_take,
        min_eq_left hse, Nat.sub_eq_zero_of_le hse, List.take_zero,
        List.append_nil]
    have t2 : (base.take e.stop ++ render base e.stop es').drop e.stop
        = render base e.stop es' := by
      rw [List.drop_append_eq_append_drop, hlen, Nat.sub_self, List.drop_zero,
        List.drop_eq_nil_of_le (le_of_eq hlen), List.nil_append]
    rw [t1, t2]

theorem delBefore_cons (e : Edit) (es : List Edit) (x : Nat) :
    delBefore (e :: es) x
      = (if e.stop ≤ x then e.stop - e.start else 0) + delBefore es x := by
  simp only [delBefore, List.filter_cons]
  by_cases h : e.stop ≤ x <;> simp [h]

theorem insBefore_cons (e : Edit) (es : List Edit) (x : Nat) :
    insBefore (e :: es) x
      = (if e.stop ≤ x then e.ins.length else 0) + insBefore es x := by
  simp only [insBefore, List.filter_cons]
  by_cases h : e.stop ≤ x <;> simp [h]

theorem delTotal_cons (e : Edit) (es : List Edit) :
    delTotal (e :: es) = (e.stop - e.start) + delTotal es := by
  simp [delTotal]

theorem insTotal_cons (e : Edit) (es : List Edit) :
    insTotal (e :: es) = e.ins.length + insTotal es := by
  simp [insTotal]

theorem delBefore_le_sub {n : Nat} (es : List Edit) (x : Nat) :
    ∀ c, ChainB n c es → delBefore es x ≤ x - c := by
  induction es with
  | nil => intro c _; simp [delBefore]
  | cons e es' ih =>
    intro c hch
    obtain ⟨h1, h2, h3, h4⟩ := chainB_cons.mp hch
    rw [delBefore_cons]
    have := ih e.stop h4
    by_cases h : e.stop ≤ x <;> simp only [h, if_true, if_false] <;> omega

theorem delChainSum {n : Nat} (es : List Edit) :
    ∀ c, ChainB n c es → delTotal es ≤ n - c := by
  induction es with
  | nil => intro c _; simp [delTotal]
  | cons e es' ih =>
    intro c hch
    obtain ⟨h1, h2, h3, h4⟩ := chainB_cons.mp hch
    rw [delTotal_cons]
    have := ih e.stop h4
    omega

theorem delBefore_mono (es : List Edit) {x y : Nat} (h : x ≤ y) :
    delBefore es x ≤ delBefore es y := by
  induction es with
  | nil => simp [delBefore]
  | cons e es' ih =>
    rw [delBefore_cons, delBefore_cons]
    by_cases hx : e.stop ≤ x
    · rw [if_pos hx, if_pos (le_trans hx h)]; omega
    · rw [if_neg hx]
      by_cases hy : e.stop ≤ y <;> simp only [hy, if_true, if_false] <;> omega

theorem insBefore_mono (es : List Edit) {x y : Nat} (h : x ≤ y) :
    insBefore es x ≤ insBefore es y := by
  induction es with
  | nil => simp [insBefore]
  | cons e es' ih =>
    rw [insBefore_cons, insBefore_cons]
    by_cases hx : e.stop ≤ x
    · rw [if_pos hx, if_pos (le_trans hx h)]; omega
    · rw [if_neg hx]
      by_cases hy : e.stop ≤ y <;> simp only [hy, if_true, if_false] <;> omega

theorem delBefore_le_delTotal (es : List Edit) (x : Nat) :
    delBefore es x ≤ delTotal es := by
  induction es with
  | nil => simp [delBefore, delTotal]
  | cons e es' ih =>
    rw [delBefore_cons, delTotal_cons]
    by_cases h : e.stop ≤ x <;> simp only [h, if_true, if_false] <;> omega

theorem insBefore_le_insTotal (es : List Edit) (x : Nat) :
    insBefore es x ≤ insTotal es := by
  induction es with
  | nil => simp [insBefore, insTotal]
  | cons e es' ih =>
    rw [insBefore_cons, insTotal_cons]
    by_cases h : e.stop ≤ x <;> simp only [h, if_true, if_false] <;> omega

theorem delBefore_between {n : Nat} (es : List Edit) {x1 y1 x2 : Nat}
    (hxy : x1 ≤ y1) (hx2 : y1 ≤ x2)
    (hdis : ∀ e ∈ es, e.stop ≤ x1 ∨ y1 ≤ e.start) :
    ∀ c, ChainB n c es → delBefore es x2 ≤ delBefore es x1 + (x2 - y1) := by
  induction es with
  | nil => intro c _; simp [delBefore]
  | cons e es' ih =>
    intro c hch
    obtain ⟨h1, h2, h3, h4⟩ := chainB_cons.mp hch
    rcases hdis e (List.mem_cons_self _ _) with hb | ha
    · rw [delBefore_cons, delBefore_cons, if_pos hb, if_pos (by omega)]
      have := ih (fun e he => hdis e (List.mem_cons_of_mem _ he)) e.stop h4
      omega
    · have hre : ChainB n y1 (e :: es') := chainB_reanchor hch ha
      have := delBefore_le_sub (n := n) (e :: es') x2 y1 hre
      omega

theorem length_render (base : List Char) (es : List Edit) :
    ∀ cur, ChainB base.length cur es → cur ≤ base.length →
    (render base cur es).length + cur + delTotal es
      = base.length + insTotal es := by
  induction es with
  | nil =>
    intro cur _ hcur
    simp only [render, List.length_drop, delTotal, insTotal, List.map_nil,
      List.sum_nil]
    omega
  | cons e es' ih =>
    intro cur hch hcur
    obtain ⟨h1, h2, h3, h4⟩ := chainB_cons.mp hch
    have := ih e.stop h4 h3
    rw [delTotal_cons, insTotal_cons]
    simp only [render, List.length_append, List.length_drop, List.length_take]
    omega

/-- `shiftEdit` relative to a cursor: re-anchor an edit of the second
script through the first script's edits, working in the suffix of the
base that starts at `cur`. -/
def shiftFrom (cur : Nat) (es : List Edit) (f : Edit) : Edit :=
  ⟨f.start - cur + insBefore es f.start - delBefore es f.start,
   f.stop - cur + insBefore es f.start - delBefore es f.start,
   f.ins⟩

theorem shiftFrom_zero (es : List Edit) (f : Edit) :
    shiftFrom 0 es f = shiftEdit es f := by
  simp [shiftFrom, shiftEdit]

/-- Weak ascending positional order (start, then end). -/
def ascLE (e f : Edit) : Bool :=
  decide (e.start < f.start) ||
    (decide (e.start = f.start) && decide (e.stop ≤ f.stop))

/-- Merge two ascending edit scripts by position. -/
def mergeAsc : List Edit → List Edit → List Edit
  | [], F => F
  | E, [] => E
  | e :: E, f :: F =>
    if ascLE e f then e :: mergeAsc E (f :: F)
    else f :: mergeAsc (e :: E) F
termination_by E F => E.length + F.length

theorem chainB_all_start {n : Nat} (es : List Edit) :
    ∀ c, ChainB n c es → ∀ e ∈ es, c ≤ e.start := by
  induction es with
  | nil => intro c _ e he; simp at he
  | cons e es' ih =>
    intro c hch g hg
    obtain ⟨h1, h2, h3, h4⟩ := chainB_cons.mp hch
    rcases List.mem_cons.mp hg with hg | hg
    · subst hg; exact h1
    · have := ih e.stop h4 g hg
      omega

theorem chainB_all_bounds {n : Nat} (es : List Edit) :
    ∀ c, ChainB n c es → ∀ e ∈ es, e.start ≤ e.stop ∧ e.stop ≤ n := by
  induction es with
  | nil => intro c _ e he; simp at he
  | cons e es' ih =>
    intro c hch g hg
    obtain ⟨h1, h2, h3, h4⟩ := chainB_cons.mp hch
    rcases List.mem_cons.mp hg with hg | hg
    · subst hg; exact ⟨h2, h3⟩
    · exact ih e.stop h4 g hg

theorem insBefore_eq_zero (es : List Edit) (x : Nat)
    (h : ∀ e ∈ es, ¬(e.stop ≤ x)) : insBefore es x = 0 := by
  induction es with
  | nil => simp [insBefore]
  | cons e es' ih =>
    rw [insBefore_cons, if_neg (h e (List.mem_cons_self _ _)),
      ih (fun g hg => h g (List.mem_cons_of_mem _ hg))]

theorem delBefore_eq_zero (es : List Edit) (x : Nat)
    (h : ∀ e ∈ es, ¬(e.stop ≤ x)) : delBefore es x = 0 := by
  induction es with
  | nil => simp [delBefore]
  | cons e es' ih =>
    rw [delBefore_cons, if_neg (h e (List.mem_cons_self _ _)),
      ih (fun g hg => h g (List.mem_cons_of_mem _ hg))]

theorem render_seq :
    ∀ (N : Nat) (E F : List Edit) (base : List Char) (cur : Nat),
    E.length + F.length ≤ N →
    ChainB base.length cur E → ChainB base.length cur F →
    (∀ e ∈ E, ∀ f ∈ F, seqBefore e f ∨ seqBefore f e) →
    render (render base cur E) 0 (F.map (shiftFrom cur E))
      = render base cur (mergeAsc E F) := by
  intro N
  induction N with
  | zero =>
    intro E F base cur hlen hE hF hS
    have hE0 : E = [] := List.length_eq_zero.mp (by omega)
    have hF0 : F = [] := List.length_eq_zero.mp (by omega)
    subst hE0; subst hF0
    simp [render, mergeAsc]
  | succ n ih =>
    intro E F base cur hlen hE hF hS
    match E, F with
    | [], F =>
      rw [show mergeAsc [] F = F from by simp [mergeAsc],
        show F.map (shiftFrom cur [])
            = F.map (fun f => ⟨f.start - cur, f.stop - cur, f.ins⟩) from
          List.map_congr_left (fun g _ => by simp [shiftFrom, insBefore, delBefore]),
        show render base cur ([] : List Edit) = base.drop cur from rfl]
      have hrb := render_rebase base base.length F cur cur (le_refl _) hF
      rw [Nat.sub_self] at hrb
      exact hrb
    | e :: E', [] =>
      simp only [List.map_nil]
      rw [show mergeAsc (e :: E') [] = e :: E' from by simp [mergeAsc]]
      rfl
    | e :: E', f :: F' =>
      obtain ⟨he1, he2, he3, he4⟩ := chainB_cons.mp hE
      obtain ⟨hf1, hf2, hf3, hf4⟩ := chainB_cons.mp hF
      have hSef := hS e (List.mem_cons_self _ _) f (List.mem_cons_self _ _)
      by_cases hef : ascLE e f = true
      · -- edit e comes first
        have hle : e.start < f.start ∨ (e.start = f.start ∧ e.stop ≤ f.stop) := by
          simpa [ascLE] using hef
        have hordEF : seqBefore e f := by
          rcases hSef with h | h
          · exact h
          · exfalso; simp only [seqBefore, lexLt] at h; omega
        have hef' : e.stop ≤ f.start := hordEF.1
        have hFstart : ∀ g ∈ f :: F', e.stop ≤ g.start := by
          intro g hg
          rcases List.mem_cons.mp hg with hg | hg
          · subst hg; exact hef'
          · have := chainB_all_start F' f.stop hf4 g hg
            omega
        have hXdef : render base cur (e :: E')
            = ((base.take e.start).drop cur ++ e.ins) ++ render base e.stop E' := by
          simp only [render, List.append_assoc]
        rw [hXdef]
        set P : List Char := (base.take e.start).drop cur ++ e.ins with hP
        set Y : List Char := render base e.stop E' with hYdef
        have hPlen : P.length = (e.start - cur) + e.ins.length := by
          rw [hP, List.length_append, List.length_drop, List.length_take,
            min_eq_left (by omega : e.start ≤ base.length)]
        have hshift : (f :: F').map (shiftFrom cur (e :: E'))
            = ((f :: F').map (shiftFrom e.stop E')).map
                (fun g => ⟨P.length + g.start, P.length + g.stop, g.ins⟩) := by
          rw [List.map_map]
          refine List.map_congr_left ?_
          intro g hg
          have hg' : e.stop ≤ g.start := hFstart g hg
          have hins := insBefore_cons e E' g.start
          have hdel := delBefore_cons e E' g.start
          rw [if_pos hg'] at hins hdel
          have hD := delBefore_le_sub (n := base.length) E' g.start e.stop he4
          have hgb := chainB_all_bounds (f :: F') cur hF g hg
          simp only [Function.comp_apply, shiftFrom, Edit.mk.injEq, hins, hdel, hPlen]
          exact ⟨by omega, by omega, trivial⟩
        rw [hshift]
        have hheads : ∀ h0, (((f :: F').map (shiftFrom e.stop E')).map
            (fun g => (⟨P.length + g.start, P.length + g.stop, g.ins⟩ : Edit))).head?
              = some h0 → P.length ≤ h0.start := by
          intro h0 hh0
          simp only [List.map_cons, List.head?_cons, Option.some_inj] at hh0
          rw [← hh0]
          simp
        rw [render_anchor (P ++ Y) 0 P.length _ (Nat.zero_le _) hheads,
          List.drop_zero]
        have htakeP : (P ++ Y).take P.length = P := by
          have h := takePlus P Y 0
          simp only [Nat.add_zero, List.take_zero, List.append_nil] at h
          exact h
        rw [htakeP]
        have hpre := render_skip P Y 0 ((f :: F').map (shiftFrom e.stop E'))
        rw [Nat.add_zero] at hpre
        rw [hpre]
        have hih1 := ih E' (f :: F') base e.stop
          (by simp only [List.length_cons] at hlen ⊢; omega)
          he4 (chainB_reanchor hF hef')
          (fun e' he' f' hf' => hS e' (List.mem_cons_of_mem _ he') f' hf')
        rw [← hYdef] at hih1
        rw [hih1]
        rw [show mergeAsc (e :: E') (f :: F') = e :: mergeAsc E' (f :: F') from by
          simp [mergeAsc, hef]]
        simp only [render]
      · -- edit f comes first
        have hef2 : ascLE e f = false := by simpa using hef
        have hlf : lexLt f e := by
          have := hef2
          simp only [ascLE, Bool.or_eq_false_iff, Bool.and_eq_false_iff,
            decide_eq_false_iff_not, not_lt] at this
          simp only [lexLt]
          omega
        have hordFE : seqBefore f e := by
          rcases hSef with h | h
          · exfalso
            simp only [seqBefore, lexLt] at h
            simp only [lexLt] at hlf
            omega
          · exact h
        have hfe : f.stop ≤ e.start := hordFE.1
        have hcf : cur ≤ f.stop := by omega
        have hEstart : ∀ g ∈ e :: E', f.stop ≤ g.start := by
          intro g hg
          rcases List.mem_cons.mp hg with hg | hg
          · subst hg; exact hfe
          · have := chainB_all_start E' e.stop he4 g hg
            omega
        have hnotle : ∀ g ∈ e :: E', ¬(g.stop ≤ f.start) := by
          intro g hg hcon
          have h1 := hEstart g hg
          have h2 := chainB_all_bounds (e :: E') cur hE g hg
          have h3 := hS g hg f (List.mem_cons_self _ _)
          simp only [seqBefore, lexLt] at h3
          omega
        have hins0 : insBefore (e :: E') f.start = 0 := insBefore_eq_zero _ _ hnotle
        have hdel0 : delBefore (e :: E') f.start = 0 := delBefore_eq_zero _ _ hnotle
        have hreE : ChainB base.length f.stop (e :: E') := chainB_reanchor hE hfe
        rw [List.map_cons]
        have hfsh : shiftFrom cur (e :: E') f
            = ⟨f.start - cur, f.stop - cur, f.ins⟩ := by
          simp only [shiftFrom, hins0, hdel0, Nat.add_zero, Nat.sub_zero]
        rw [hfsh]
        have hanch : render base cur (e :: E')
            = (base.take f.stop).drop cur ++ render base f.stop (e :: E') :=
          render_anchor base cur f.stop (e :: E') hcf
            (fun g hg => by
              simp only [List.head?_cons, Option.some_inj] at hg
              rw [← hg]
              exact hfe)
        rw [hanch]
        set Q : List Char := (base.take f.stop).drop cur with hQ
        set X₂ : List Char := render base f.stop (e :: E') with hX₂
        have hQlen : Q.length = f.stop - cur := by
          rw [hQ, List.length_drop, List.length_take,
            min_eq_left (by omega : f.stop ≤ base.length)]
        have hshiftF' : F'.map (shiftFrom cur (e :: E'))
            = (F'.map (shiftFrom f.stop (e :: E'))).map
                (fun g => ⟨Q.length + g.start, Q.length + g.stop, g.ins⟩) := by
          rw [List.map_map]
          refine List.map_congr_left ?_
          intro g hg
          have hgfs : f.stop ≤ g.start := chainB_all_start F' f.stop hf4 g hg
          have hD := delBefore_le_sub (n := base.length) (e :: E') g.start f.stop hreE
          have hgb := chainB_all_bounds F' f.stop hf4 g hg
          simp only [Function.comp_apply, shiftFrom, Edit.mk.injEq, hQlen]
          exact ⟨by omega, by omega, trivial⟩
        rw [hshiftF']
        simp only [render, List.drop_zero]
        have ht : (Q ++ X₂).take (f.start - cur) = (base.take f.start).drop cur := by
          rw [List.take_append_eq_append_take, hQlen,
            show f.start - cur - (f.stop - cur) = 0 from by omega,
            List.take_zero, List.append_nil, hQ, ← List.drop_take,
            List.take_take, min_eq_left hf2]
        rw [ht]
        have hpre := render_skip Q X₂ 0 (F'.map (shiftFrom f.stop (e :: E')))
        rw [Nat.add_zero] at hpre
        rw [← hQlen, hpre]
        have hih2 := ih (e :: E') F' base f.stop
          (by simp only [List.length_cons] at hlen ⊢; omega)
          hreE hf4
          (fun e' he' f' hf' => hS e' he' f' (List.mem_cons_of_mem _ hf'))
        rw [← hX₂] at hih2
        rw [hih2]
        rw [show mergeAsc (e :: E') (f :: F') = f :: mergeAsc (e :: E') F' from by
          simp [mergeAsc, hef2]]
        simp only [render]

instance : IsTotal Edit descLE :=
  ⟨fun a b => by simp only [descLE]; omega⟩

instance : IsTrans Edit descLE :=
  ⟨fun a b c h1 h2 => by simp only [descLE] at *; omega⟩

theorem chainB_of_sorted (es : List Edit) :
    ∀ (n c : Nat), (∀ e ∈ es, e.start ≤ e.stop ∧ e.stop ≤ n) →
    es.Pairwise seqBefore →
    (∀ e0, es.head? = some e0 → c ≤ e0.start) → ChainB n c es := by
  induction es with
  | nil => intro n c _ _ _; trivial
  | cons e es' ih =>
    intro n c hb hp hh
    obtain ⟨hrel, hp'⟩ := List.pairwise_cons.mp hp
    refine chainB_cons.mpr ⟨hh e rfl, (hb e (List.mem_cons_self _ _)).1,
      (hb e (List.mem_cons_self _ _)).2, ?_⟩
    refine ih n e.stop (fun g hg => hb g (List.mem_cons_of_mem _ hg)) hp' ?_
    intro g hgh
    cases es' with
    | nil => simp at hgh
    | cons g2 t =>
      simp only [List.head?_cons, Option.some_inj] at hgh
      rw [← hgh]
      exact (hrel g2 (List.mem_cons_self _ _)).1

theorem sortDesc_reverse_pairwise (L : List Edit)
    (hS : L.Pairwise (fun a b => seqBefore a b ∨ seqBefore b a)) :
    ((L.insertionSort descLE).reverse).Pairwise seqBefore ∧
      ((L.insertionSort descLE).reverse).Perm L := by
  have hperm : (L.insertionSort descLE).Perm L := L.perm_insertionSort descLE
  have hperm' : ((L.insertionSort descLE).reverse).Perm L :=
    ((L.insertionSort descLE).reverse_perm).trans hperm
  have hsorted : (L.insertionSort descLE).Pairwise descLE :=
    L.sorted_insertionSort descLE
  have hrev : ((L.insertionSort descLE).reverse).Pairwise
      (fun a b => descLE b a) := by
    rw [List.pairwise_reverse]
    exact hsorted
  have hSrev : ((L.insertionSort descLE).reverse).Pairwise
      (fun a b => seqBefore a b ∨ seqBefore b a) := by
    refine (hperm'.pairwise_iff ?_).mpr hS
    intro a b h
    exact h.elim Or.inr Or.inl
  refine ⟨(hrev.and hSrev).imp ?_, hperm'⟩
  intro a b hab
  obtain ⟨h1, h2⟩ := hab
  rcases h2 with h2 | h2
  · exact h2
  · exfalso
    simp only [descLE] at h1
    simp only [seqBefore, lexLt] at h2
    omega

theorem pairwise_seqBefore_perm_eq {l1 l2 : List Edit} (h : l1.Perm l2)
    (s1 : l1.Pairwise seqBefore) (s2 : l2.Pairwise seqBefore) : l1 = l2 := by
  haveI : IsAntisymm Edit lexLt :=
    ⟨fun a b h1 h2 => by exfalso; simp only [lexLt] at h1 h2; omega⟩
  haveI : IsTrans Edit lexLt :=
    ⟨fun a b c h1 h2 => by simp only [lexLt] at *; omega⟩
  exact List.eq_of_perm_of_sorted h
    (s1.imp fun hab => hab.2) (s2.imp fun hab => hab.2)

theorem mergeAsc_perm : ∀ (E F : List Edit), (mergeAsc E F).Perm (E ++ F) := by
  intro E
  induction E with
  | nil =>
    intro F
    rw [show mergeAsc [] F = F from by simp [mergeAsc], List.nil_append]
  | cons e E' ihE =>
    intro F
    induction F with
    | nil =>
      rw [show mergeAsc (e :: E') [] = e :: E' from by simp [mergeAsc],
        List.append_nil]
    | cons f F' ihF =>
      by_cases hef : ascLE e f = true
      · rw [show mergeAsc (e :: E') (f :: F') = e :: mergeAsc E' (f :: F') from by
          simp [mergeAsc, hef]]
        exact (ihE (f :: F')).cons e
      · have hef2 : ascLE e f = false := by simpa using hef
        rw [show mergeAsc (e :: E') (f :: F') = f :: mergeAsc (e :: E') F' from by
          simp [mergeAsc, hef2]]
        exact (ihF.cons f).trans List.perm_middle.symm

theorem mergeAsc_pairwise : ∀ (E F : List Edit),
    E.Pairwise seqBefore → F.Pairwise seqBefore →
    (∀ e ∈ E, ∀ f ∈ F, seqBefore e f ∨ seqBefore f e) →
    (mergeAsc E F).Pairwise seqBefore := by
  intro E
  induction E with
  | nil =>
    intro F _ hF _
    rw [show mergeAsc [] F = F from by simp [mergeAsc]]
    exact hF
  | cons e E' ihE =>
    intro F
    induction F with
    | nil =>
      intro hE _ _
      rw [show mergeAsc (e :: E') [] = e :: E' from by simp [mergeAsc]]
      exact hE
    | cons f F' ihF =>
      intro hE hF hX
      obtain ⟨hrelE, hE'⟩ := List.pairwise_cons.mp hE
      obtain ⟨hrelF, hF'⟩ := List.pairwise_cons.mp hF
      have hSef := hX e (List.mem_cons_self _ _) f (List.mem_cons_self _ _)
      by_cases hef : ascLE e f = true
      · have hle : e.start < f.start ∨ (e.start = f.start ∧ e.stop ≤ f.stop) := by
          simpa [ascLE] using hef
        have hordEF : seqBefore e f := by
          rcases hSef with h | h
          · exact h
          · exfalso; simp only [seqBefore, lexLt] at h; omega
        rw [show mergeAsc (e :: E') (f :: F') = e :: mergeAsc E' (f :: F') from by
          simp [mergeAsc, hef]]
        refine List.pairwise_cons.mpr ⟨?_, ihE (f :: F') hE' hF
          (fun e' he' g hg => hX e' (List.mem_cons_of_mem _ he') g hg)⟩
        intro g hg
        have hg' : g ∈ E' ++ (f :: F') := (mergeAsc_perm E' (f :: F')).mem_iff.mp hg
        rcases List.mem_append.mp hg' with hg' | hg'
        · exact hrelE g hg'
        · rcases List.mem_cons.mp hg' with hg' | hg'
          · rw [hg']; exact hordEF
          · have h1 : seqBefore f g := hrelF g hg'
            have h2 := hX e (List.mem_cons_self _ _) g (List.mem_cons_of_mem _ hg')
            rcases h2 with h2 | h2
            · exact h2
            · exfalso
              simp only [seqBefore, lexLt] at hordEF h1 h2
              omega
      · have hef2 : ascLE e f = false := by simpa using hef
        have hlf : lexLt f e := by
          have := hef2
          simp only [ascLE, Bool.or_eq_false_iff, Bool.and_eq_false_iff,
            decide_eq_false_iff_not, not_lt] at this
          simp only [lexLt]
          omega
        have hordFE : seqBefore f e := by
          rcases hSef with h | h
          · exfalso
            simp only [seqBefore, lexLt] at h
            simp only [lexLt] at hlf
            omega
          · exact h
        rw [show mergeAsc (e :: E') (f :: F') = f :: mergeAsc (e :: E') F' from by
          simp [mergeAsc, hef2]]
        refine List.pairwise_cons.mpr ⟨?_, ihF hE hF'
          (fun e' he' g hg => hX e' he' g (List.mem_cons_of_mem _ hg))⟩
        intro g hg
        have hg' : g ∈ (e :: E') ++ F' := (mergeAsc_perm (e :: E') F').mem_iff.mp hg
        rcases List.mem_append.mp hg' with hg' | hg'
        · rcases List.mem_cons.mp hg' with hg' | hg'
          · rw [hg']; exact hordFE
          · have h1 : seqBefore e g := hrelE g hg'
            have h2 := hX g (List.mem_cons_of_mem _ hg') f (List.mem_cons_self _ _)
            rcases h2 with h2 | h2
            · exfalso
              simp only [seqBefore, lexLt] at hordFE h1 h2
              omega
            · exact h2
        · exact hrelF g hg'

theorem delTotal_sub_le {n : Nat} (E : List Edit) (y z : Nat)
    (hyz : y ≤ z) :
    ∀ c, ChainB n c E → (∀ e ∈ E, e.stop ≤ y ∨ z ≤ e.start) →
    delTotal E ≤ delBefore E y + (n - z) := by
  induction E with
  | nil => intro c _ _; simp [delTotal, delBefore]
  | cons e E' ih =>
    intro c hch hdis
    obtain ⟨h1, h2, h3, h4⟩ := chainB_cons.mp hch
    rcases hdis e (List.mem_cons_self _ _) with hb | ha
    · rw [delTotal_cons, delBefore_cons, if_pos hb]
      have := ih e.stop h4 (fun g hg => hdis g (List.mem_cons_of_mem _ hg))
      omega
    · have hre : ChainB n e.start (e :: E') := chainB_reanchor hch (le_refl _)
      have hds := delChainSum (e :: E') e.start hre
      omega

theorem shifted_chainB (E : List Edit) (n m : Nat) (hE : ChainB n 0 E)
    (hm : m + delTotal E = n + insTotal E) :
    ∀ (F : List Edit) (c : Nat), ChainB n c F →
    (∀ e ∈ E, ∀ f ∈ F, e.stop ≤ f.start ∨ f.stop ≤ e.start) →
    ∀ c', (∀ g, (F.map (shiftEdit E)).head? = some g → c' ≤ g.start) →
    ChainB m c' (F.map (shiftEdit E)) := by
  intro F
  induction F with
  | nil => intro c _ _ c' _; trivial
  | cons f F' ih =>
    intro c hch hdis c' hh
    obtain ⟨h1, h2, h3, h4⟩ := chainB_cons.mp hch
    have hD : delBefore E f.start ≤ f.start := by
      have := delBefore_le_sub (n := n) E f.start 0 hE
      omega
    have hIle := insBefore_le_insTotal E f.start
    have hDT := delBefore_le_delTotal E f.start
    have hsub := delTotal_sub_le (n := n) E f.start f.stop h2 0 hE
      (fun e he => hdis e he f (List.mem_cons_self _ _))
    simp only [List.map_cons]
    refine chainB_cons.mpr ⟨hh _ rfl, ?_, ?_, ?_⟩
    · simp only [shiftEdit]
      omega
    · simp only [shiftEdit]
      omega
    · refine ih f.stop h4
        (fun e he g hg => hdis e he g (List.mem_cons_of_mem _ hg)) _ ?_
      intro g hgh
      cases F' with
      | nil => simp at hgh
      | cons f2 t =>
        simp only [List.map_cons, List.head?_cons, Option.some_inj] at hgh
        rw [← hgh]
        obtain ⟨h21, h22, h23, h24⟩ := chainB_cons.mp h4
        have hmono := insBefore_mono E (show f.start ≤ f2.start by omega)
        have hbet := delBefore_between (n := n) E
          (show f.start ≤ f.stop from h2) (show f.stop ≤ f2.start from h21)
          (fun e he => hdis e he f (List.mem_cons_self _ _)) 0 hE
        simp only [shiftEdit]
        omega

theorem toEdits_wf (base : List Char) (d : List DiffOp)
    (h : NormOps d) (hr : reconstructOld d = base) :
    (∀ e ∈ toEdits base d, e.start ≤ e.stop ∧ e.stop ≤ base.length) ∧
    (toEdits base d).Pairwise seqBefore := by
  have hw := toEditsGo_wf d 0 none h.1 h.2
    (by intro s l hsl; exact absurd hsl (by simp))
  refine ⟨?_, hw.2.1⟩
  intro e he
  have hprops := hw.1 e he
  obtain ⟨_, hb, hc, _⟩ := hprops
  have hlen : oldLen d = base.length := by rw [oldLen_eq_length, hr]
  exact ⟨hb, by omega⟩

theorem applyEditsDesc_eq_render (base : List Char) (E : List Edit)
    (hb : ∀ e ∈ E, e.start ≤ e.stop ∧ e.stop ≤ base.length)
    (hp : E.Pairwise seqBefore) :
    applyEditsDesc base E = render base 0 E := by
  have hS : E.Pairwise (fun a b => seqBefore a b ∨ seqBefore b a) :=
    hp.imp fun h => Or.inl h
  obtain ⟨hps, hperm⟩ := sortDesc_reverse_pairwise E hS
  have heq : (E.insertionSort descLE).reverse = E :=
    pairwise_seqBefore_perm_eq hperm hps hp
  have hsort : E.insertionSort descLE = E.reverse := by
    conv_rhs => rw [← heq]
    rw [List.reverse_reverse]
  unfold applyEditsDesc
  rw [hsort, List.foldl_reverse]
  exact foldr_splice_eq_render base E
    (chainB_of_sorted E base.length 0 hb hp (fun _ _ => Nat.zero_le _))

theorem tryMergeApply_eq_render (base : List Char) (E1 E2 : List Edit)
    (hb1 : ∀ e ∈ E1, e.start ≤ e.stop ∧ e.stop ≤ base.length)
    (hb2 : ∀ e ∈ E2, e.start ≤ e.stop ∧ e.stop ≤ base.length)
    (hp1 : E1.Pairwise seqBefore) (hp2 : E2.Pairwise seqBefore)
    (hX : ∀ e ∈ E1, ∀ f ∈ E2, seqBefore e f ∨ seqBefore f e) :
    tryMergeApply base E1 E2 = render base 0 (mergeAsc E1 E2) := by
  have hSL : (E1 ++ E2).Pairwise (fun a b => seqBefore a b ∨ seqBefore b a) := by
    rw [List.pairwise_append]
    exact ⟨hp1.imp (fun h => Or.inl h), hp2.imp (fun h => Or.inl h),
      fun a ha b hb => hX a ha b hb⟩
  obtain ⟨hps, hperm⟩ := sortDesc_reverse_pairwise (E1 ++ E2) hSL
  have hmp : (mergeAsc E1 E2).Pairwise seqBefore :=
    mergeAsc_pairwise E1 E2 hp1 hp2 hX
  have hmperm : (mergeAsc E1 E2).Perm (E1 ++ E2) := mergeAsc_perm E1 E2
  have heq : ((E1 ++ E2).insertionSort descLE).reverse = mergeAsc E1 E2 :=
    pairwise_seqBefore_perm_eq (hperm.trans hmperm.symm) hps hmp
  have hsort : (E1 ++ E2).insertionSort descLE = (mergeAsc E1 E2).reverse := by
    conv_rhs => rw [← heq]
    rw [List.reverse_reverse]
  unfold tryMergeApply applyEditsDesc
  rw [hsort, List.foldl_reverse]
  refine foldr_splice_eq_render base (mergeAsc E1 E2)
    (chainB_of_sorted _ base.length 0 ?_ hmp (fun _ _ => Nat.zero_le _))
  intro e he
  have he' : e ∈ E1 ++ E2 := hmperm.mem_iff.mp he
  rcases List.mem_append.mp he' with h | h
  · exact hb1 e h
  · exact hb2 e h

theorem seqApply_eq_render (base : List Char) (E1 E2 : List Edit)
    (hb1 : ∀ e ∈ E1, e.start ≤ e.stop ∧ e.stop ≤ base.length)
    (hb2 : ∀ e ∈ E2, e.start ≤ e.stop ∧ e.stop ≤ base.length)
    (hp1 : E1.Pairwise seqBefore) (hp2 : E2.Pairwise seqBefore)
    (hX : ∀ e ∈ E1, ∀ f ∈ E2, seqBefore e f ∨ seqBefore f e) :
    seqApply base E1 E2 = render base 0 (mergeAsc E1 E2) := by
  have hC1 : ChainB base.length 0 E1 :=
    chainB_of_sorted E1 base.length 0 hb1 hp1 (fun _ _ => Nat.zero_le _)
  have hC2 : ChainB base.length 0 E2 :=
    chainB_of_sorted E2 base.length 0 hb2 hp2 (fun _ _ => Nat.zero_le _)
  have h1 : applyEditsDesc base E1 = render base 0 E1 :=
    applyEditsDesc_eq_render base E1 hb1 hp1
  have hlen := length_render base E1 0 hC1 (Nat.zero_le _)
  have hch : ChainB (render base 0 E1).length 0 (E2.map (shiftEdit E1)) := by
    refine shifted_chainB E1 base.length (render base 0 E1).length hC1
      (by omega) E2 0 hC2 ?_ 0 (fun _ _ => Nat.zero_le _)
    intro e he f hf
    rcases hX e he f hf with h | h
    · exact Or.inl h.1
    · exact Or.inr h.1
  unfold seqApply
  rw [h1, foldr_splice_eq_render (render base 0 E1) (E2.map (shiftEdit E1)) hch,
    List.map_congr_left (fun f _ => (shiftFrom_zero E1 f).symm)]
  exact render_seq (E1.length + E2.length) E1 E2 base 0 (le_refl _) hC1 hC2 hX


/-- Claim C4: for every base string and every two edit lists produced
by `toEdits` from normalized diffs of that base, if no edit of one list
overlaps any edit of the other (per the `overlaps` predicate), then
splicing the combined edit set into the base sorted by start descending
(ties: larger end first) — `tryMergeApply` — yields the same string as
applying the two edit lists sequentially (`seqApply`), in either
order. -/
theorem claimC4_patch_composability (base : List Char) (d1 d2 : List DiffOp)
    (hn1 : NormOps d1) (hn2 : NormOps d2)
    (hr1 : reconstructOld d1 = base) (hr2 : reconstructOld d2 = base)
    (hov : ∀ e1 ∈ toEdits base d1, ∀ e2 ∈ toEdits base d2,
      overlaps e1 e2 = false) :
    tryMergeApply base (toEdits base d1) (toEdits base d2)
        = seqApply base (toEdits base d1) (toEdits base d2) ∧
      tryMergeApply base (toEdits base d1) (toEdits base d2)
        = seqApply base (toEdits base d2) (toEdits base d1) := by
  obtain ⟨hb1, hp1⟩ := toEdits_wf base d1 hn1 hr1
  obtain ⟨hb2, hp2⟩ := toEdits_wf base d2 hn2 hr2
  have hX : ∀ e ∈ toEdits base d1, ∀ f ∈ toEdits base d2,
      seqBefore e f ∨ seqBefore f e :=
    fun e he f hf =>
      overlaps_false_orders e f (hb1 e he).1 (hb2 f hf).1 (hov e he f hf)
  have hX' : ∀ f ∈ toEdits base d2, ∀ e ∈ toEdits base d1,
      seqBefore f e ∨ seqBefore e f :=
    fun f hf e he => (hX e he f hf).symm
  have hmc : mergeAsc (toEdits base d1) (toEdits base d2)
      = mergeAsc (toEdits base d2) (toEdits base d1) :=
    pairwise_seqBefore_perm_eq
      ((mergeAsc_perm _ _).trans
        (List.perm_append_comm.trans (mergeAsc_perm _ _).symm))
      (mergeAsc_pairwise _ _ hp1 hp2 hX) (mergeAsc_pairwise _ _ hp2 hp1 hX')
  have ht := tryMergeApply_eq_render base _ _ hb1 hb2 hp1 hp2 hX
  have hs1 := seqApply_eq_render base _ _ hb1 hb2 hp1 hp2 hX
  have hs2 := seqApply_eq_render base _ _ hb2 hb1 hp2 hp1 hX'
  exact ⟨by rw [ht, hs1], by rw [ht, hs2, hmc]⟩

/-- Witness for C4 at a concrete merge: base "abcd", one diff inserting
"X" after "ab", the other replacing the leading "a" with "A". -/
theorem claimC4_witness :
    NormOps [((0 : Int), strL "ab"), (1, strL "X"), (0, strL "cd")] ∧
    NormOps [((-1 : Int), strL "a"), (1, strL "A"), (0, strL "bcd")] ∧
    (∀ e1 ∈ toEdits (strL "abcd")
        [((0 : Int), strL "ab"), (1, strL "X"), (0, strL "cd")],
      ∀ e2 ∈ toEdits (strL "abcd")
        [((-1 : Int), strL "a"), (1, strL "A"), (0, strL "bcd")],
      overlaps e1 e2 = false) ∧
    tryMergeApply (strL "abcd")
        (toEdits (strL "abcd")
          [((0 : Int), strL "ab"), (1, strL "X"), (0, strL "cd")])
        (toEdits (strL "abcd")
          [((-1 : Int), strL "a"), (1, strL "A"), (0, strL "bcd")])
      = seqApply (strL "abcd")
        (toEdits (strL "abcd")
          [((0 : Int), strL "ab"), (1, strL "X"), (0, strL "cd")])
        (toEdits (strL "abcd")
          [((-1 : Int), strL "a"), (1, strL "A"), (0, strL "bcd")]) :=
  ⟨⟨by decide, by simp [List.chain'_cons]⟩,
    ⟨by decide, by simp [List.chain'_cons]⟩, by decide,
    (claimC4_patch_composability (strL "abcd") _ _
      ⟨by decide, by simp [List.chain'_cons]⟩
      ⟨by decide, by simp [List.chain'_cons]⟩
      (by decide) (by decide) (by decide)).1⟩
